import Mathlib

/-!
Verification development for the lightpatch repository.

The repository contains a byte-level diff engine (dmp.go, a byte port of the
go-diff Myers implementation) and two patch codecs:

* the varint codec of the package variant that defines MakePatchTimeout and a
  streaming ApplyPatch (opcode byte, unsigned base-128 varint length, payload
  for Insert, and a trailing checksum record consisting of the opcode K and
  four CRC-32 bytes in big-endian order) -- this is the format documented by
  the README;
* the hex codec of lightpatch.go (a version byte, then records written as
  lowercase hex length digits followed by the opcode byte, payload after an
  Insert opcode, terminated by hex CRC digits and the opcode K).

Bytes are modelled as natural numbers (Go byte values are 0..255); Go slices
become Lean lists.  Wall-clock deadlines are modelled by a boolean flag
(whether a deadline is set at all, Go deadline.IsZero negated) together with
an oracle from check indices to booleans (whether time.Now().After(deadline)
holds at the n-th deadline poll of the run); a poll counter is threaded
through the engine so that every sequence of poll outcomes of a real run is
realised by some oracle.  Unbounded Go recursion is modelled with an explicit
fuel parameter; fuel exhaustion returns the trivial delete-all/insert-all
script, which is the same fallback the source uses on deadline expiry.
-/

namespace Lightpatch

/-- Byte values; Go byte is 0..255, modelled as Nat. -/
abbrev Byte := Nat

/-- Opcode constants from lightpatch.go and the package variant. -/
def OpCopy : Byte := 67

/-- Opcode byte for Insert records, the character I. -/
def OpInsert : Byte := 73

/-- Opcode byte for Delete records, the character D. -/
def OpDelete : Byte := 68

/-- Opcode byte for the checksum record, the character K. -/
def OpCRC : Byte := 75

/-- Version byte of the hex format, the character A (lightpatch.go). -/
def VersionByte : Byte := 65

/-- One diff operation, struct diff in dmp.go.  The Go field Type is a byte
holding one of the opcode constants; Type is a reserved word in Lean, so the
field is named ty. -/
structure diff where
  ty : Byte
  Text : List Byte
deriving Repr, DecidableEq

/-- Bytes a record consumes from the source: Copy and Delete consume their
text, Insert consumes nothing. -/
def srcText (d : diff) : List Byte :=
  if d.ty = OpInsert then [] else d.Text

/-- Bytes a record contributes to the target: Copy and Insert contribute
their text, Delete contributes nothing. -/
def dstText (d : diff) : List Byte :=
  if d.ty = OpDelete then [] else d.Text

/-- Concatenation of the source spans of a script, in order. -/
def srcConcat (l : List diff) : List Byte :=
  (l.map srcText).flatten

/-- Concatenation of the target spans of a script, in order. -/
def dstConcat (l : List diff) : List Byte :=
  (l.map dstText).flatten

/-- A well-formed script uses only the three edit opcodes. -/
def wfOps (l : List diff) : Prop :=
  ∀ d ∈ l, d.ty = OpCopy ∨ d.ty = OpInsert ∨ d.ty = OpDelete

/-- The validity invariant of an edit script for a source and a target. -/
def Good (t1 t2 : List Byte) (l : List diff) : Prop :=
  srcConcat l = t1 ∧ dstConcat l = t2 ∧ wfOps l

@[simp] theorem srcConcat_nil : srcConcat [] = [] := rfl
@[simp] theorem dstConcat_nil : dstConcat [] = [] := rfl

@[simp] theorem srcConcat_cons (d : diff) (l : List diff) :
    srcConcat (d :: l) = srcText d ++ srcConcat l := rfl

@[simp] theorem dstConcat_cons (d : diff) (l : List diff) :
    dstConcat (d :: l) = dstText d ++ dstConcat l := rfl

@[simp] theorem srcConcat_append (a b : List diff) :
    srcConcat (a ++ b) = srcConcat a ++ srcConcat b := by
  simp [srcConcat]

@[simp] theorem dstConcat_append (a b : List diff) :
    dstConcat (a ++ b) = dstConcat a ++ dstConcat b := by
  simp [dstConcat]

@[simp] theorem srcText_copy (t : List Byte) : srcText ⟨OpCopy, t⟩ = t := rfl
@[simp] theorem srcText_del (t : List Byte) : srcText ⟨OpDelete, t⟩ = t := rfl
@[simp] theorem srcText_ins (t : List Byte) : srcText ⟨OpInsert, t⟩ = [] := rfl
@[simp] theorem dstText_copy (t : List Byte) : dstText ⟨OpCopy, t⟩ = t := rfl
@[simp] theorem dstText_del (t : List Byte) : dstText ⟨OpDelete, t⟩ = [] := rfl
@[simp] theorem dstText_ins (t : List Byte) : dstText ⟨OpInsert, t⟩ = t := rfl

theorem wfOps_nil : wfOps [] := by intro d h; cases h

theorem wfOps_append {a b : List diff} (ha : wfOps a) (hb : wfOps b) :
    wfOps (a ++ b) := by
  intro d h
  rcases List.mem_append.mp h with h' | h'
  · exact ha d h'
  · exact hb d h'

theorem wfOps_cons {d : diff} {l : List diff}
    (hd : d.ty = OpCopy ∨ d.ty = OpInsert ∨ d.ty = OpDelete) (hl : wfOps l) :
    wfOps (d :: l) := by
  intro e he
  rcases List.mem_cons.mp he with rfl | he
  · exact hd
  · exact hl _ he

theorem wfOps_of_append_left {a b : List diff} (h : wfOps (a ++ b)) : wfOps a :=
  fun d hd => h d (List.mem_append.mpr (Or.inl hd))

theorem wfOps_of_append_right {a b : List diff} (h : wfOps (a ++ b)) : wfOps b :=
  fun d hd => h d (List.mem_append.mpr (Or.inr hd))

/-- commonPrefixLength from dmp.go: length of the common prefix of two byte
slices, by linear scan. -/
def commonPrefixLength : List Byte → List Byte → Nat
  | a :: as, b :: bs => if a = b then commonPrefixLength as bs + 1 else 0
  | _, _ => 0

/-- commonSuffixLength from dmp.go: length of the common suffix, modelled by
the common prefix of the reversed slices (the source scans backwards, which
computes the same number). -/
def commonSuffixLength (t1 t2 : List Byte) : Nat :=
  commonPrefixLength t1.reverse t2.reverse

theorem commonPrefixLength_le_left :
    ∀ a b : List Byte, commonPrefixLength a b ≤ a.length := by
  intro a
  induction a with
  | nil => intro b; cases b <;> simp [commonPrefixLength]
  | cons x xs ih =>
    intro b
    cases b with
    | nil => simp [commonPrefixLength]
    | cons y ys =>
      by_cases h : x = y <;> simp [commonPrefixLength, h]
      exact ih ys

theorem commonPrefixLength_le_right :
    ∀ a b : List Byte, commonPrefixLength a b ≤ b.length := by
  intro a
  induction a with
  | nil => intro b; cases b <;> simp [commonPrefixLength]
  | cons x xs ih =>
    intro b
    cases b with
    | nil => simp [commonPrefixLength]
    | cons y ys =>
      by_cases h : x = y <;> simp [commonPrefixLength, h]
      exact ih ys

theorem commonPrefixLength_take :
    ∀ a b : List Byte, a.take (commonPrefixLength a b) = b.take (commonPrefixLength a b) := by
  intro a
  induction a with
  | nil => intro b; cases b <;> simp [commonPrefixLength]
  | cons x xs ih =>
    intro b
    cases b with
    | nil => simp [commonPrefixLength]
    | cons y ys =>
      by_cases h : x = y <;> simp [commonPrefixLength, h]
      exact ih ys

theorem commonSuffixLength_le_left (a b : List Byte) :
    commonSuffixLength a b ≤ a.length := by
  simpa using commonPrefixLength_le_left a.reverse b.reverse

theorem commonSuffixLength_le_right (a b : List Byte) :
    commonSuffixLength a b ≤ b.length := by
  simpa using commonPrefixLength_le_right a.reverse b.reverse

theorem commonSuffixLength_drop (a b : List Byte) :
    a.drop (a.length - commonSuffixLength a b)
      = b.drop (b.length - commonSuffixLength a b) := by
  have h := commonPrefixLength_take a.reverse b.reverse
  rw [List.take_reverse, List.take_reverse] at h
  have h2 := List.reverse_injective h
  simpa [commonSuffixLength] using h2

/-- clone from dmp.go copies a byte slice to avoid aliasing; Lean lists are
immutable values, so it is the identity. -/
def clone (b : List Byte) : List Byte := b

/-- cleanAppend from dmp.go concatenates byte slices into a fresh slice. -/
def cleanAppend (a b : List Byte) : List Byte := a ++ b

/-- Whether the last record of the processed part is a Copy; corresponds to
the Go test diffs[x-1].Type == OpCopy. -/
def lastIsCopy (pre : List diff) : Bool :=
  match pre.getLast? with
  | some d => d.ty == OpCopy
  | none => false

/-- The Go code either appends the factored common prefix to the Copy record
just before the edit block, or, when there is no such Copy, prepends a fresh
Copy record at the front of the list. -/
def attachPrefixCopy (pre : List diff) (pfx : List Byte) : List diff :=
  match pre.getLast? with
  | some last =>
    if last.ty = OpCopy then pre.dropLast ++ [⟨OpCopy, last.Text ++ pfx⟩]
    else ⟨OpCopy, pfx⟩ :: pre
  | none => [⟨OpCopy, pfx⟩]

/-- Merging the current equality into the previous Copy record, the Go
branch diffs[pointer-1].Text += diffs[pointer].Text followed by removing the
current record. -/
def appendToLastCopy (pre : List diff) (t : List Byte) : List diff :=
  match pre.getLast? with
  | some last => pre.dropLast ++ [⟨last.ty, last.Text ++ t⟩]
  | none => pre

/-- Common prefix and suffix factoring inside the merge pass of
diffCleanupMerge (the countDelete and countInsert both nonzero case).
Returns the updated processed part, the trimmed insert text, the trimmed
delete text, and the text of the current Copy record with the factored
suffix prepended. -/
def mergeFactor (pre : List diff) (textInsert textDelete dText : List Byte) :
    List diff × List Byte × List Byte × List Byte :=
  let cl := commonPrefixLength textInsert textDelete
  let pre1 := if cl ≠ 0 then attachPrefixCopy pre (textInsert.take cl) else pre
  let tI1 := if cl ≠ 0 then textInsert.drop cl else textInsert
  let tD1 := if cl ≠ 0 then textDelete.drop cl else textDelete
  let sl := commonSuffixLength tI1 tD1
  let dT := if sl ≠ 0 then tI1.drop (tI1.length - sl) ++ dText else dText
  let tI2 := if sl ≠ 0 then tI1.take (tI1.length - sl) else tI1
  let tD2 := if sl ≠ 0 then tD1.take (tD1.length - sl) else tD1
  (pre1, tI2, tD2, dT)

/-- First pass of diffCleanupMerge from dmp.go.  The Go slice diffs with its
index pointer is decomposed as pre ++ block ++ rest with
pointer = pre.length + block.length; block is the run of Insert and Delete
records accumulated since the last equality, and countDelete, countInsert,
textDelete, textInsert are the counters of the source.  Every branch of the
Go loop consumes exactly one record from rest (backward pointer jumps in the
source only re-position inside already rebuilt records), so the loop is
structural recursion on rest. -/
def mergeLoop : List diff → List diff → List diff → Nat → Nat → List Byte → List Byte → List diff
  | pre, block, [], _, _, _, _ => pre ++ block
  | pre, block, d :: rest, countDelete, countInsert, textDelete, textInsert =>
    if d.ty = OpInsert then
      mergeLoop pre (block ++ [d]) rest countDelete (countInsert + 1)
        textDelete (textInsert ++ d.Text)
    else if d.ty = OpDelete then
      mergeLoop pre (block ++ [d]) rest (countDelete + 1) countInsert
        (textDelete ++ d.Text) textInsert
    else if d.ty = OpCopy then
      if countDelete + countInsert > 1 then
        let fo :=
          if countDelete ≠ 0 ∧ countInsert ≠ 0 then
            mergeFactor pre textInsert textDelete d.Text
          else (pre, textInsert, textDelete, d.Text)
        let merged :=
          if countDelete = 0 then [(⟨OpInsert, fo.2.1⟩ : diff)]
          else if countInsert = 0 then [(⟨OpDelete, fo.2.2.1⟩ : diff)]
          else [(⟨OpDelete, fo.2.2.1⟩ : diff), ⟨OpInsert, fo.2.1⟩]
        mergeLoop (fo.1 ++ merged ++ [⟨OpCopy, fo.2.2.2⟩]) [] rest 0 0 [] []
      else if block = [] ∧ lastIsCopy pre then
        mergeLoop (appendToLastCopy pre d.Text) [] rest 0 0 [] []
      else
        mergeLoop (pre ++ block ++ [d]) [] rest 0 0 [] []
    else
      -- unreachable for well-formed scripts: the Go switch has no default
      -- case and would not advance past an unknown opcode
      mergeLoop (pre ++ block ++ [d]) [] rest 0 0 [] []

/-- End of pass 1 of diffCleanupMerge: remove the dummy sentinel when its
text is still empty (the check on the last record of the source). -/
def dropLastIfEmpty (ds : List diff) : List diff :=
  match ds.getLast? with
  | some last => if last.Text = [] then ds.dropLast else ds
  | none => ds

/-- diffCleanupMerge pass 1: append the dummy Copy sentinel, run the merge
loop, and drop the sentinel if its text is still empty. -/
def mergePass1 (diffs : List diff) : List diff :=
  dropLastIfEmpty (mergeLoop [] [] (diffs ++ [⟨OpCopy, []⟩]) 0 0 [] [])

/-- Second pass of diffCleanupMerge: a single edit surrounded by two Copy
records is shifted sideways when it can be merged with one of them.  The Go
window (diffs[pointer-1], diffs[pointer], diffs[pointer+1]) is the state
(x, y, head of rest); each iteration consumes one record from rest. -/
def shiftLoop : List diff → diff → diff → List diff → Bool → List diff × Bool
  | pre, x, y, [], changes => (pre ++ [x, y], changes)
  | pre, x, y, z :: rest, changes =>
    if x.ty = OpCopy ∧ z.ty = OpCopy then
      if x.Text <:+ y.Text then
        -- shift the edit over the previous equality
        shiftLoop pre ⟨y.ty, cleanAppend x.Text (y.Text.take (y.Text.length - x.Text.length))⟩
          ⟨z.ty, cleanAppend x.Text z.Text⟩ rest true
      else if z.Text <+: y.Text then
        -- shift the edit over the next equality
        match rest with
        | w :: rest' =>
          shiftLoop (pre ++ [⟨x.ty, cleanAppend x.Text z.Text⟩])
            ⟨y.ty, cleanAppend (y.Text.drop z.Text.length) z.Text⟩ w rest' true
        | [] => (pre ++ [⟨x.ty, cleanAppend x.Text z.Text⟩,
                  ⟨y.ty, cleanAppend (y.Text.drop z.Text.length) z.Text⟩], true)
      else
        shiftLoop (pre ++ [x]) y z rest changes
    else
      shiftLoop (pre ++ [x]) y z rest changes

/-- Second pass wrapper: the Go loop runs only when the script has at least
three records (pointer from 1 to length minus 2). -/
def shiftPass (ds : List diff) : List diff × Bool :=
  match ds with
  | x :: y :: z :: rest => shiftLoop [] x y (z :: rest) false
  | _ => (ds, false)

/-- diffCleanupMerge from dmp.go.  The source re-runs itself whenever the
shift pass changed something; that recursion is modelled with fuel (each
shift strictly shrinks the script, so any generous fuel reproduces the
source behaviour; the invariants below hold for every fuel value). -/
def diffCleanupMerge (fuel : Nat) (diffs : List diff) : List diff :=
  let p := shiftPass (mergePass1 diffs)
  match fuel with
  | 0 => p.1
  | fuel' + 1 => if p.2 then diffCleanupMerge fuel' p.1 else p.1

/-- First index at or after the start of the list where the pattern occurs,
the model of bytes.Index. -/
def bIndexAux (pat : List Byte) : List Byte → Nat → Option Nat
  | l, i =>
    if pat <+: l then some i
    else
      match l with
      | [] => none
      | _ :: t => bIndexAux pat t (i + 1)

/-- bytes.Index: index of the first occurrence of pat in l, or none. -/
def bIndex (l pat : List Byte) : Option Nat := bIndexAux pat l 0

/-- bytesIndexOf from dmp.go: search for pattern in target starting at
index i; the source returns -1 when i is greater than len(target)-2. -/
def bytesIndexOf (target pattern : List Byte) (i : Nat) : Option Nat :=
  if i + 2 > target.length then none
  else
    match bIndex (target.drop i) pattern with
    | some ind => some (ind + i)
    | none => none

/-- Result of the half-match heuristic: prefix and suffix of text1, prefix
and suffix of text2, and the common middle (the five slices the Go code
returns as an array). -/
structure HalfMatch where
  t1A : List Byte
  t1B : List Byte
  t2A : List Byte
  t2B : List Byte
  mid : List Byte
deriving Repr, DecidableEq

/-- The mutable best-candidate bookkeeping of diffHalfMatchI. -/
structure HMState where
  commonA : List Byte
  commonB : List Byte
  longA : List Byte
  longB : List Byte
  shortA : List Byte
  shortB : List Byte
deriving Repr, DecidableEq

/-- Candidate loop of diffHalfMatchI: walk the occurrences of the seed in s,
expanding common prefix and suffix around each and keeping the longest.  The
occurrence index strictly increases, so fuel s.length + 2 reproduces the
source loop in full. -/
def diffHalfMatchILoop (l s seed : List Byte) (i : Nat) :
    Nat → Nat → HMState → HMState
  | 0, _, best => best
  | fuel + 1, start, best =>
    match bytesIndexOf s seed start with
    | none => best
    | some j =>
      let prefixLength := commonPrefixLength (l.drop i) (s.drop j)
      let suffixLength := commonSuffixLength (l.take i) (s.take j)
      let best' :=
        if best.commonA.length + best.commonB.length < suffixLength + prefixLength then
          { commonA := (s.take j).drop (j - suffixLength)
            commonB := (s.drop j).take prefixLength
            longA := l.take (i - suffixLength)
            longB := l.drop (i + prefixLength)
            shortA := s.take (j - suffixLength)
            shortB := s.drop (j + prefixLength) }
        else best
      diffHalfMatchILoop l s seed i fuel (j + 1) best'

/-- diffHalfMatchI from dmp.go: does a substring of s around position i of l
cover at least half of l? -/
def diffHalfMatchI (l s : List Byte) (i : Nat) : Option HalfMatch :=
  let seed := (l.drop i).take (l.length / 4)
  let best := diffHalfMatchILoop l s seed i (s.length + 2) 0 ⟨[], [], [], [], [], []⟩
  if (best.commonA.length + best.commonB.length) * 2 < l.length then none
  else some ⟨best.longA, best.longB, best.shortA, best.shortB, best.commonA ++ best.commonB⟩

/-- diffHalfMatch from dmp.go.  With unlimited time the heuristic is skipped
(a non-optimal diff is not risked); otherwise both seed positions are probed
and the longer match kept, with the rejection thresholds of the source. -/
def diffHalfMatch (text1 text2 : List Byte) (unlimitedTime : Bool) : Option HalfMatch :=
  if unlimitedTime then none
  else
    let longtext := if text1.length > text2.length then text1 else text2
    let shorttext := if text1.length > text2.length then text2 else text1
    if longtext.length < 4 ∨ shorttext.length * 2 < longtext.length then none
    else
      let hm1 := diffHalfMatchI longtext shorttext ((longtext.length + 3) / 4)
      let hm2 := diffHalfMatchI longtext shorttext ((longtext.length + 1) / 2)
      let hm :=
        match hm1, hm2 with
        | none, none => none
        | some h1, none => some h1
        | none, some h2 => some h2
        | some h1, some h2 => some (if h1.mid.length > h2.mid.length then h1 else h2)
      match hm with
      | none => none
      | some h =>
        if text1.length > text2.length then some h
        else some ⟨h.t2A, h.t2B, h.t1A, h.t1B, h.mid⟩

/-- Greedy snake extension of the forward diagonal walk: advance while the
bytes of the two inputs agree. -/
def snakeF (r1 r2 : List Byte) (x y : Nat) : Nat × Nat :=
  if h : x < r1.length ∧ y < r2.length then
    if r1.getD x 0 = r2.getD y 0 then snakeF r1 r2 (x + 1) (y + 1) else (x, y)
  else (x, y)
termination_by r1.length - x
decreasing_by omega

/-- Greedy snake extension of the reverse diagonal walk, comparing bytes
from the tails. -/
def snakeR (r1 r2 : List Byte) (x y : Nat) : Nat × Nat :=
  if h : x < r1.length ∧ y < r2.length then
    if r1.getD (r1.length - x - 1) 0 = r2.getD (r2.length - y - 1) 0 then
      snakeR r1 r2 (x + 1) (y + 1)
    else (x, y)
  else (x, y)
termination_by r1.length - x
decreasing_by omega

/-- Read a v-array slot; out-of-range reads return the sentinel -1 (the Go
code only reads initialised or sentinel slots). -/
def aget (v : Array Int) (i : Int) : Int :=
  if i < 0 then -1 else v.getD i.toNat (-1)

/-- Write a v-array slot, ignoring out-of-range writes. -/
def aset (v : Array Int) (i : Int) (x : Int) : Array Int :=
  if i < 0 then v else v.setD i.toNat x

/-- State of one diagonal walk: its v array and the two loop-range
shrinking offsets. -/
structure WalkState where
  v : Array Int
  kstart : Nat
  kend : Nat

/-- One iteration of the forward k1 loop of diffBisect: extend the furthest
reaching forward path on diagonal k1, then check for overlap with the
reverse front when the total length difference is odd. -/
def walkFrontStep (r1 r2 : List Byte) (vOffset d : Nat) (delta : Int) (front : Bool)
    (v2 : Array Int) (k1 : Int) (st : WalkState) : WalkState × Option (Nat × Nat) :=
  let k1Offset : Int := (vOffset : Int) + k1
  let x1 : Int :=
    if k1 = -(d : Int) ∨ (k1 ≠ (d : Int) ∧ aget st.v (k1Offset - 1) < aget st.v (k1Offset + 1))
    then aget st.v (k1Offset + 1)
    else aget st.v (k1Offset - 1) + 1
  let y1 : Int := x1 - k1
  let p := snakeF r1 r2 x1.toNat y1.toNat
  let x1' : Int := (p.1 : Int)
  let y1' : Int := (p.2 : Int)
  let v1' := aset st.v k1Offset x1'
  if x1' > (r1.length : Int) then
    ({ st with v := v1', kend := st.kend + 2 }, none)
  else if y1' > (r2.length : Int) then
    ({ st with v := v1', kstart := st.kstart + 2 }, none)
  else if front then
    let k2Offset : Int := (vOffset : Int) + delta - k1
    if 0 ≤ k2Offset ∧ k2Offset < (v2.size : Int) ∧ aget v2 k2Offset ≠ -1 then
      let x2 : Int := (r1.length : Int) - aget v2 k2Offset
      if x1' ≥ x2 then ({ st with v := v1' }, some (x1'.toNat, y1'.toNat))
      else ({ st with v := v1' }, none)
    else ({ st with v := v1' }, none)
  else ({ st with v := v1' }, none)

/-- The forward k1 loop: k1 from -d + k1start to d - k1end in steps of two;
the bound moves as the walk runs off the grid, so the loop is modelled with
fuel d + 2, which the step size makes sufficient. -/
def walkFrontLoop (r1 r2 : List Byte) (vOffset d : Nat) (delta : Int) (front : Bool)
    (v2 : Array Int) : Nat → Int → WalkState → WalkState × Option (Nat × Nat)
  | 0, _, st => (st, none)
  | fuel + 1, k1, st =>
    if k1 ≤ (d : Int) - (st.kend : Int) then
      match walkFrontStep r1 r2 vOffset d delta front v2 k1 st with
      | (st', some xy) => (st', some xy)
      | (st', none) => walkFrontLoop r1 r2 vOffset d delta front v2 fuel (k1 + 2) st'
    else (st, none)

/-- One iteration of the reverse k2 loop of diffBisect, mirrored onto the
top-left coordinate system for the overlap test against the forward front
when the total length difference is even. -/
def walkBackStep (r1 r2 : List Byte) (vOffset d : Nat) (delta : Int) (front : Bool)
    (v1 : Array Int) (k2 : Int) (st : WalkState) : WalkState × Option (Nat × Nat) :=
  let k2Offset : Int := (vOffset : Int) + k2
  let x2 : Int :=
    if k2 = -(d : Int) ∨ (k2 ≠ (d : Int) ∧ aget st.v (k2Offset - 1) < aget st.v (k2Offset + 1))
    then aget st.v (k2Offset + 1)
    else aget st.v (k2Offset - 1) + 1
  let y2 : Int := x2 - k2
  let p := snakeR r1 r2 x2.toNat y2.toNat
  let x2' : Int := (p.1 : Int)
  let y2' : Int := (p.2 : Int)
  let v2' := aset st.v k2Offset x2'
  if x2' > (r1.length : Int) then
    ({ st with v := v2', kend := st.kend + 2 }, none)
  else if y2' > (r2.length : Int) then
    ({ st with v := v2', kstart := st.kstart + 2 }, none)
  else if !front then
    let k1Offset : Int := (vOffset : Int) + delta - k2
    if 0 ≤ k1Offset ∧ k1Offset < (v2'.size : Int) ∧ aget v1 k1Offset ≠ -1 then
      let x1 : Int := aget v1 k1Offset
      let y1 : Int := (vOffset : Int) + x1 - k1Offset
      let x2m : Int := (r1.length : Int) - x2'
      if x1 ≥ x2m then ({ st with v := v2' }, some (x1.toNat, y1.toNat))
      else ({ st with v := v2' }, none)
    else ({ st with v := v2' }, none)
  else ({ st with v := v2' }, none)

/-- The reverse k2 loop, mirroring walkFrontLoop. -/
def walkBackLoop (r1 r2 : List Byte) (vOffset d : Nat) (delta : Int) (front : Bool)
    (v1 : Array Int) : Nat → Int → WalkState → WalkState × Option (Nat × Nat)
  | 0, _, st => (st, none)
  | fuel + 1, k2, st =>
    if k2 ≤ (d : Int) - (st.kend : Int) then
      match walkBackStep r1 r2 vOffset d delta front v1 k2 st with
      | (st', some xy) => (st', some xy)
      | (st', none) => walkBackLoop r1 r2 vOffset d delta front v1 fuel (k2 + 2) st'
    else (st, none)

/-- State of the bisection search across outer iterations. -/
structure BisectState where
  v1 : Array Int
  v2 : Array Int
  k1start : Nat
  k1end : Nat
  k2start : Nat
  k2end : Nat

/-- Outer d loop of diffBisect: at most maxD iterations, with the deadline
polled every 16 iterations through the oracle; returns the detected split
point, or none on deadline expiry or when the iteration bound is exhausted,
together with the advanced poll counter. -/
def bisectLoop (r1 r2 : List Byte) (expired : Nat → Bool) (timed : Bool)
    (vOffset : Nat) (delta : Int) (front : Bool) :
    Nat → Nat → BisectState → Nat → Option (Nat × Nat) × Nat
  | 0, _, _, tick => (none, tick)
  | rem + 1, d, st, tick =>
    let poll := timed ∧ d % 16 = 0
    let tick' := if poll then tick + 1 else tick
    if poll ∧ expired tick then (none, tick')
    else
      match walkFrontLoop r1 r2 vOffset d delta front st.v2 (d + 2)
          (-(d : Int) + (st.k1start : Int)) ⟨st.v1, st.k1start, st.k1end⟩ with
      | (_, some xy) => (some xy, tick')
      | (fst, none) =>
        match walkBackLoop r1 r2 vOffset d delta front fst.v (d + 2)
            (-(d : Int) + (st.k2start : Int)) ⟨st.v2, st.k2start, st.k2end⟩ with
        | (_, some xy) => (some xy, tick')
        | (bst, none) =>
          bisectLoop r1 r2 expired timed vOffset delta front rem (d + 1)
            ⟨fst.v, bst.v, fst.kstart, fst.kend, bst.kstart, bst.kend⟩ tick'

mutual

/-- diffMainBytes from dmp.go: equality shortcut, common prefix and suffix
trimming, recursion on the middle, and the merge cleanup pass. -/
def diffMainBytes (fuel : Nat) (text1 text2 : List Byte) (expired : Nat → Bool)
    (timed : Bool) (tick : Nat) : List diff × Nat :=
  match fuel with
  | 0 => ([⟨OpDelete, text1⟩, ⟨OpInsert, text2⟩], tick)
  | fuel' + 1 =>
    if text1 = text2 then
      (if 0 < text1.length then [⟨OpCopy, clone text1⟩] else [], tick)
    else
      let cl := commonPrefixLength text1 text2
      let commonPre := text1.take cl
      let t1 := text1.drop cl
      let t2 := text2.drop cl
      let sl := commonSuffixLength t1 t2
      let commonSuf := t1.drop (t1.length - sl)
      let t1m := t1.take (t1.length - sl)
      let t2m := t2.take (t2.length - sl)
      let r := diffCompute fuel' t1m t2m expired timed tick
      let ds1 := if commonPre.length ≠ 0 then ⟨OpCopy, clone commonPre⟩ :: r.1 else r.1
      let ds2 := if commonSuf.length ≠ 0 then ds1 ++ [⟨OpCopy, clone commonSuf⟩] else ds1
      (diffCleanupMerge (ds2.length + 2) ds2, r.2)
termination_by 4 * fuel
decreasing_by all_goals (simp_wf; try omega)

/-- diffCompute from dmp.go: base cases (one side empty, substring
containment, single byte), the half-match split, and the bisect fallback. -/
def diffCompute (fuel : Nat) (text1 text2 : List Byte) (expired : Nat → Bool)
    (timed : Bool) (tick : Nat) : List diff × Nat :=
  if text1.length = 0 then ([⟨OpInsert, clone text2⟩], tick)
  else if text2.length = 0 then ([⟨OpDelete, clone text1⟩], tick)
  else
    let longtext := if text1.length > text2.length then text1 else text2
    let shorttext := if text1.length > text2.length then text2 else text1
    match bIndex longtext shorttext with
    | some i =>
      let op := if text1.length > text2.length then OpDelete else OpInsert
      ([⟨op, clone (longtext.take i)⟩, ⟨OpCopy, clone shorttext⟩,
        ⟨op, clone (longtext.drop (i + shorttext.length))⟩], tick)
    | none =>
      if shorttext.length = 1 then
        ([⟨OpDelete, clone text1⟩, ⟨OpInsert, clone text2⟩], tick)
      else
        match diffHalfMatch text1 text2 (!timed) with
        | some hm =>
          let ra := diffMainBytes fuel hm.t1A hm.t2A expired timed tick
          let rb := diffMainBytes fuel hm.t1B hm.t2B expired timed ra.2
          (ra.1 ++ [⟨OpCopy, clone hm.mid⟩] ++ rb.1, rb.2)
        | none => diffBisect fuel text1 text2 expired timed tick
termination_by 4 * fuel + 3
decreasing_by all_goals (simp_wf; try omega)

/-- diffBisect from dmp.go: run the interleaved forward and reverse
diagonal searches; on a detected overlap recurse through diffBisectSplit,
otherwise return the trivial two-operation script. -/
def diffBisect (fuel : Nat) (r1 r2 : List Byte) (expired : Nat → Bool)
    (timed : Bool) (tick : Nat) : List diff × Nat :=
  let maxD := (r1.length + r2.length + 1) / 2
  let vOffset := maxD
  let vLength := 2 * maxD
  let vInit : Array Int := (Array.mkArray vLength (-1)).setD (vOffset + 1) 0
  let delta : Int := (r1.length : Int) - (r2.length : Int)
  let front := delta % 2 ≠ 0
  match bisectLoop r1 r2 expired timed vOffset delta front maxD 0
      ⟨vInit, vInit, 0, 0, 0, 0⟩ tick with
  | (some xy, tick') => diffBisectSplit fuel r1 r2 xy.1 xy.2 expired timed tick'
  | (none, tick') => ([⟨OpDelete, clone r1⟩, ⟨OpInsert, clone r2⟩], tick')
termination_by 4 * fuel + 2
decreasing_by all_goals (simp_wf; try omega)

/-- diffBisectSplit from dmp.go: recursively diff both halves of the split
and concatenate. -/
def diffBisectSplit (fuel : Nat) (r1 r2 : List Byte) (x y : Nat)
    (expired : Nat → Bool) (timed : Bool) (tick : Nat) : List diff × Nat :=
  let ra := diffMainBytes fuel (r1.take x) (r2.take y) expired timed tick
  let rb := diffMainBytes fuel (r1.drop x) (r2.drop y) expired timed ra.2
  (ra.1 ++ rb.1, rb.2)
termination_by 4 * fuel + 1
decreasing_by all_goals (simp_wf; try omega)

end

/-- diffMain from dmp.go: a positive timeout arms the deadline.  The
timeout value itself only fixes the wall-clock instant of the deadline, so
it is absorbed into the oracle; the boolean says whether a deadline exists.
The fuel bounds the recursion depth of the source, which is finite on every
terminating Go run; claims are proved for every fuel value. -/
def diffMain (text1 text2 : List Byte) (timed : Bool) (expired : Nat → Bool) : List diff :=
  (diffMainBytes (text1.length + text2.length + 1) text1 text2 expired timed 0).1

/-- Decidable equality for Except results, used to evaluate the codec at
concrete inputs. -/
instance {ε α : Type _} [DecidableEq ε] [DecidableEq α] : DecidableEq (Except ε α) := fun x y =>
  match x, y with
  | .ok a, .ok b =>
    if h : a = b then isTrue (by rw [h])
    else isFalse (by intro hh; cases hh; exact h rfl)
  | .error a, .error b =>
    if h : a = b then isTrue (by rw [h])
    else isFalse (by intro hh; cases hh; exact h rfl)
  | .ok _, .error _ => isFalse (by intro hh; cases hh)
  | .error _, .ok _ => isFalse (by intro hh; cases hh)

/-- The processed part of the merge loop is empty or ends in a Copy record;
this invariant is what makes the factored-prefix branch of the source (the
prepend at index zero) position-correct. -/
def PreOK (pre : List diff) : Prop := pre = [] ∨ lastIsCopy pre = true

theorem lastIsCopy_concat (L : List diff) (b : diff) :
    lastIsCopy (L ++ [b]) = (b.ty == OpCopy) := by
  simp [lastIsCopy, List.getLast?_concat]

theorem PreOK_concat_copy (L : List diff) (t : List Byte) :
    PreOK (L ++ [⟨OpCopy, t⟩]) := by
  right
  simp [lastIsCopy_concat]

theorem attachPrefixCopy_spec (pre : List diff) (pfx : List Byte)
    (hp : PreOK pre) :
    srcConcat (attachPrefixCopy pre pfx) = srcConcat pre ++ pfx ∧
    dstConcat (attachPrefixCopy pre pfx) = dstConcat pre ++ pfx ∧
    (wfOps pre → wfOps (attachPrefixCopy pre pfx)) ∧
    PreOK (attachPrefixCopy pre pfx) := by
  rcases hp with rfl | hcopy
  · refine ⟨by simp [attachPrefixCopy], by simp [attachPrefixCopy], ?_, ?_⟩
    · intro _
      simp only [attachPrefixCopy]
      exact wfOps_cons (Or.inl rfl) wfOps_nil
    · simp only [attachPrefixCopy]
      exact PreOK_concat_copy [] pfx
  · rcases List.eq_nil_or_concat pre with rfl | ⟨L, b, rfl⟩
    · simp [lastIsCopy] at hcopy
    · rw [List.concat_eq_append] at *
      rw [lastIsCopy_concat] at hcopy
      have hb : b.ty = OpCopy := by simpa using hcopy
      have hunf : attachPrefixCopy (L ++ [b]) pfx
          = L ++ [⟨OpCopy, b.Text ++ pfx⟩] := by
        simp [attachPrefixCopy, List.getLast?_concat, hb, List.dropLast_concat]
      refine ⟨?_, ?_, ?_, ?_⟩
      · rw [hunf]
        simp [srcConcat_append, srcText, hb, OpCopy, OpInsert]
      · rw [hunf]
        simp [dstConcat_append, dstText, hb, OpCopy, OpDelete]
      · intro hw
        rw [hunf]
        exact wfOps_append (wfOps_of_append_left hw)
          (wfOps_cons (Or.inl rfl) wfOps_nil)
      · rw [hunf]
        exact PreOK_concat_copy L _

theorem appendToLastCopy_spec (pre : List diff) (t : List Byte)
    (hcopy : lastIsCopy pre = true) :
    srcConcat (appendToLastCopy pre t) = srcConcat pre ++ t ∧
    dstConcat (appendToLastCopy pre t) = dstConcat pre ++ t ∧
    (wfOps pre → wfOps (appendToLastCopy pre t)) ∧
    PreOK (appendToLastCopy pre t) := by
  rcases List.eq_nil_or_concat pre with rfl | ⟨L, b, rfl⟩
  · simp [lastIsCopy] at hcopy
  · rw [List.concat_eq_append] at *
    rw [lastIsCopy_concat] at hcopy
    have hb : b.ty = OpCopy := by simpa using hcopy
    have hunf : appendToLastCopy (L ++ [b]) t = L ++ [⟨b.ty, b.Text ++ t⟩] := by
      simp [appendToLastCopy, List.getLast?_concat, List.dropLast_concat]
    refine ⟨?_, ?_, ?_, ?_⟩
    · rw [hunf]
      simp [srcConcat_append, srcText, hb, OpCopy, OpInsert]
    · rw [hunf]
      simp [dstConcat_append, dstText, hb, OpCopy, OpDelete]
    · intro hw
      rw [hunf]
      exact wfOps_append (wfOps_of_append_left hw)
        (wfOps_cons (Or.inl hb) wfOps_nil)
    · rw [hunf, hb]
      exact PreOK_concat_copy L _

theorem suffix_decomp {x y : List Byte} (h : x <:+ y) :
    y = y.take (y.length - x.length) ++ x := by
  rcases h with ⟨t, rfl⟩
  have : (t ++ x).length - x.length = t.length := by simp
  rw [this, List.take_left]

theorem prefix_decomp {z y : List Byte} (h : z <+: y) :
    y = z ++ y.drop z.length := by
  rcases h with ⟨t, rfl⟩
  simp [List.drop_left]

theorem take_drop_append (u : List Byte) (n : Nat) (v : List Byte) :
    u.take n ++ (u.drop n ++ v) = u ++ v := by
  rw [← List.append_assoc, List.take_append_drop]

theorem mergeFactor_spec (pre : List diff) (tI tD dT : List Byte)
    (hp : PreOK pre) :
    srcConcat (mergeFactor pre tI tD dT).1 ++ (mergeFactor pre tI tD dT).2.2.1
        ++ (mergeFactor pre tI tD dT).2.2.2
      = srcConcat pre ++ tD ++ dT ∧
    dstConcat (mergeFactor pre tI tD dT).1 ++ (mergeFactor pre tI tD dT).2.1
        ++ (mergeFactor pre tI tD dT).2.2.2
      = dstConcat pre ++ tI ++ dT ∧
    (wfOps pre → wfOps (mergeFactor pre tI tD dT).1) ∧
    PreOK (mergeFactor pre tI tD dT).1 := by
  have htakeEq : tI.take (commonPrefixLength tI tD) = tD.take (commonPrefixLength tI tD) :=
    commonPrefixLength_take tI tD
  obtain ⟨hs, hd, hw, hpo⟩ :=
    attachPrefixCopy_spec pre (tI.take (commonPrefixLength tI tD)) hp
  unfold mergeFactor
  dsimp only
  split_ifs with h1 h2 h2
  · -- prefix factored, suffix factored
    have hdropEq := commonSuffixLength_drop (tI.drop (commonPrefixLength tI tD))
      (tD.drop (commonPrefixLength tI tD))
    refine ⟨?_, ?_, hw, hpo⟩
    · simp only [List.append_assoc] at hs ⊢
      rw [hs, hdropEq, htakeEq, take_drop_append]
      simp only [List.append_assoc]
      rw [take_drop_append]
    · simp only [List.append_assoc] at hd ⊢
      rw [hd, take_drop_append]
      simp only [List.append_assoc]
      rw [take_drop_append]
  · -- prefix factored, no suffix
    refine ⟨?_, ?_, hw, hpo⟩
    · simp only [List.append_assoc] at hs ⊢
      rw [hs, htakeEq]
      simp only [List.append_assoc]
      rw [take_drop_append]
    · simp only [List.append_assoc] at hd ⊢
      rw [hd]
      simp only [List.append_assoc]
      rw [take_drop_append]
  · -- no prefix, suffix factored
    have hdropEq := commonSuffixLength_drop tI tD
    refine ⟨?_, ?_, fun hww => hww, hp⟩
    · simp only [List.append_assoc]
      rw [hdropEq, take_drop_append]
    · simp only [List.append_assoc]
      rw [take_drop_append]
  · exact ⟨rfl, rfl, fun hww => hww, hp⟩

theorem op_ne_ci : OpCopy ≠ OpInsert := by decide
theorem op_ne_cd : OpCopy ≠ OpDelete := by decide
theorem op_ne_di : OpDelete ≠ OpInsert := by decide

theorem mergeLoop_good :
    ∀ (rest pre block : List diff) (cd ci : Nat) (tD tI : List Byte),
      wfOps rest → wfOps block → wfOps pre → PreOK pre →
      srcConcat block = tD → dstConcat block = tI →
      (cd = 0 → tD = []) → (ci = 0 → tI = []) →
      srcConcat (mergeLoop pre block rest cd ci tD tI)
          = srcConcat pre ++ tD ++ srcConcat rest ∧
      dstConcat (mergeLoop pre block rest cd ci tD tI)
          = dstConcat pre ++ tI ++ dstConcat rest ∧
      wfOps (mergeLoop pre block rest cd ci tD tI) := by
  intro rest
  induction rest with
  | nil =>
    intro pre block cd ci tD tI _ hwb hwp _ hsb hdb _ _
    simp only [mergeLoop, srcConcat_append, dstConcat_append, srcConcat_nil, dstConcat_nil,
      List.append_nil]
    exact ⟨by rw [hsb], by rw [hdb], wfOps_append hwp hwb⟩
  | cons d rest ih =>
    intro pre block cd ci tD tI hwr hwb hwp hpo hsb hdb hcd hci
    obtain ⟨dty, dtx⟩ := d
    have hwd := hwr _ (List.mem_cons_self _ _)
    have hwrest : wfOps rest := fun e he => hwr e (List.mem_cons_of_mem _ he)
    simp only at hwd
    rcases hwd with hC | hI | hD
    · -- current record is a Copy
      subst hC
      rw [mergeLoop, if_neg op_ne_ci, if_neg op_ne_cd, if_pos rfl]
      by_cases hgt : cd + ci > 1
      · rw [if_pos hgt]
        dsimp only
        by_cases hboth : cd ≠ 0 ∧ ci ≠ 0
        · -- both kinds of edits present: prefix and suffix factoring
          rw [if_pos hboth, if_neg hboth.1, if_neg hboth.2]
          obtain ⟨fs, fd, fw, fpo⟩ := mergeFactor_spec pre tI tD dtx hpo
          obtain ⟨is1, is2, is3⟩ := ih
            ((mergeFactor pre tI tD dtx).1 ++
              [⟨OpDelete, (mergeFactor pre tI tD dtx).2.2.1⟩,
               ⟨OpInsert, (mergeFactor pre tI tD dtx).2.1⟩] ++
              [⟨OpCopy, (mergeFactor pre tI tD dtx).2.2.2⟩])
            [] 0 0 [] [] hwrest wfOps_nil
            (wfOps_append (wfOps_append (fw hwp)
              (wfOps_cons (Or.inr (Or.inr rfl))
                (wfOps_cons (Or.inr (Or.inl rfl)) wfOps_nil)))
              (wfOps_cons (Or.inl rfl) wfOps_nil))
            (PreOK_concat_copy _ _)
            rfl rfl (fun _ => rfl) (fun _ => rfl)
          refine ⟨?_, ?_, is3⟩
          · rw [is1]
            have fs2 := congrArg (fun l => l ++ srcConcat rest) fs
            simp only [srcConcat_append, srcConcat_cons, srcConcat_nil, srcText_del,
              srcText_ins, srcText_copy, List.append_nil, List.nil_append,
              List.append_assoc] at fs2 ⊢
            exact fs2
          · rw [is2]
            have fd2 := congrArg (fun l => l ++ dstConcat rest) fd
            simp only [dstConcat_append, dstConcat_cons, dstConcat_nil, dstText_del,
              dstText_ins, dstText_copy, List.append_nil, List.nil_append,
              List.append_assoc] at fd2 ⊢
            exact fd2
        · -- only one kind of edit appears in the block
          rw [if_neg hboth]
          rcases Decidable.not_and_iff_or_not.mp hboth with h0 | h0
          all_goals simp only [Decidable.not_not] at h0
          · -- countDelete is zero: the block is pure inserts
            have htD : tD = [] := hcd h0
            subst htD h0
            rw [if_pos rfl]
            obtain ⟨is1, is2, is3⟩ := ih
              (pre ++ [⟨OpInsert, tI⟩] ++ [⟨OpCopy, dtx⟩]) [] 0 0 [] []
              hwrest wfOps_nil
              (wfOps_append (wfOps_append hwp
                (wfOps_cons (Or.inr (Or.inl rfl)) wfOps_nil))
                (wfOps_cons (Or.inl rfl) wfOps_nil))
              (PreOK_concat_copy _ _) rfl rfl (fun _ => rfl) (fun _ => rfl)
            refine ⟨?_, ?_, is3⟩
            · rw [is1]
              simp [List.append_assoc]
            · rw [is2]
              simp [List.append_assoc]
          · -- countInsert is zero: the block is pure deletes
            have htI : tI = [] := hci h0
            have hcdne : cd ≠ 0 := by omega
            subst htI h0
            rw [if_neg hcdne, if_pos rfl]
            obtain ⟨is1, is2, is3⟩ := ih
              (pre ++ [⟨OpDelete, tD⟩] ++ [⟨OpCopy, dtx⟩]) [] 0 0 [] []
              hwrest wfOps_nil
              (wfOps_append (wfOps_append hwp
                (wfOps_cons (Or.inr (Or.inr rfl)) wfOps_nil))
                (wfOps_cons (Or.inl rfl) wfOps_nil))
              (PreOK_concat_copy _ _) rfl rfl (fun _ => rfl) (fun _ => rfl)
            refine ⟨?_, ?_, is3⟩
            · rw [is1]
              simp [List.append_assoc]
            · rw [is2]
              simp [List.append_assoc]
      · -- at most one pending edit
        rw [if_neg hgt]
        by_cases hmg : block = [] ∧ lastIsCopy pre = true
        · rw [if_pos hmg]
          obtain ⟨as1, ad1, aw1, apo1⟩ := appendToLastCopy_spec pre dtx hmg.2
          have htD0 : tD = [] := by rw [← hsb, hmg.1]; rfl
          have htI0 : tI = [] := by rw [← hdb, hmg.1]; rfl
          subst htD0 htI0
          obtain ⟨is1, is2, is3⟩ := ih (appendToLastCopy pre dtx) [] 0 0 [] []
            hwrest wfOps_nil (aw1 hwp) apo1 rfl rfl (fun _ => rfl) (fun _ => rfl)
          refine ⟨?_, ?_, is3⟩
          · rw [is1, as1]
            simp [List.append_assoc]
          · rw [is2, ad1]
            simp [List.append_assoc]
        · rw [if_neg hmg]
          have hpo2 : PreOK (pre ++ block ++ [(⟨OpCopy, dtx⟩ : diff)]) :=
            PreOK_concat_copy _ _
          obtain ⟨is1, is2, is3⟩ := ih (pre ++ block ++ [⟨OpCopy, dtx⟩]) [] 0 0 [] []
            hwrest wfOps_nil
            (wfOps_append (wfOps_append hwp hwb) (wfOps_cons (Or.inl rfl) wfOps_nil))
            hpo2 rfl rfl (fun _ => rfl) (fun _ => rfl)
          refine ⟨?_, ?_, is3⟩
          · rw [is1]
            simp only [srcConcat_append, srcConcat_cons, srcConcat_nil, srcText_copy,
              List.append_nil, List.append_assoc, hsb]
          · rw [is2]
            simp only [dstConcat_append, dstConcat_cons, dstConcat_nil, dstText_copy,
              List.append_nil, List.append_assoc, hdb]
    · -- current record is an Insert
      subst hI
      rw [mergeLoop, if_pos rfl]
      obtain ⟨is1, is2, is3⟩ := ih pre (block ++ [⟨OpInsert, dtx⟩]) cd (ci + 1)
        tD (tI ++ dtx)
        hwrest
        (wfOps_append hwb (wfOps_cons (Or.inr (Or.inl rfl)) wfOps_nil))
        hwp hpo
        (by simp [hsb])
        (by simp [hdb])
        hcd (by omega)
      refine ⟨?_, ?_, is3⟩
      · rw [is1]
        simp [List.append_assoc]
      · rw [is2]
        simp [List.append_assoc]
    · -- current record is a Delete
      subst hD
      rw [mergeLoop, if_neg op_ne_di, if_pos rfl]
      obtain ⟨is1, is2, is3⟩ := ih pre (block ++ [⟨OpDelete, dtx⟩]) (cd + 1) ci
        (tD ++ dtx) tI
        hwrest
        (wfOps_append hwb (wfOps_cons (Or.inr (Or.inr rfl)) wfOps_nil))
        hwp hpo
        (by simp [hsb])
        (by simp [hdb])
        (by omega) hci
      refine ⟨?_, ?_, is3⟩
      · rw [is1]
        simp [List.append_assoc]
      · rw [is2]
        simp [List.append_assoc]


theorem srcText_of_nilText {d : diff} (h : d.Text = []) : srcText d = [] := by
  unfold srcText
  split <;> simp [h]

theorem dstText_of_nilText {d : diff} (h : d.Text = []) : dstText d = [] := by
  unfold dstText
  split <;> simp [h]

theorem dropLastIfEmpty_good (ds : List diff) (hw : wfOps ds) :
    srcConcat (dropLastIfEmpty ds) = srcConcat ds ∧
    dstConcat (dropLastIfEmpty ds) = dstConcat ds ∧
    wfOps (dropLastIfEmpty ds) := by
  rcases List.eq_nil_or_concat ds with rfl | ⟨L, b, hcon⟩
  · exact ⟨rfl, rfl, hw⟩
  · rw [List.concat_eq_append] at hcon
    subst hcon
    have hunf : dropLastIfEmpty (L ++ [b])
        = if b.Text = [] then L else L ++ [b] := by
      unfold dropLastIfEmpty
      rw [List.getLast?_concat, List.dropLast_concat]
    rw [hunf]
    by_cases hbt : b.Text = []
    · rw [if_pos hbt]
      refine ⟨?_, ?_, wfOps_of_append_left hw⟩
      · simp [srcText_of_nilText hbt]
      · simp [dstText_of_nilText hbt]
    · rw [if_neg hbt]
      exact ⟨rfl, rfl, hw⟩

theorem mergePass1_good (ds : List diff) (hw : wfOps ds) :
    srcConcat (mergePass1 ds) = srcConcat ds ∧
    dstConcat (mergePass1 ds) = dstConcat ds ∧
    wfOps (mergePass1 ds) := by
  obtain ⟨h1, h2, h3⟩ := mergeLoop_good (ds ++ [⟨OpCopy, []⟩]) [] [] 0 0 [] []
    (wfOps_append hw (wfOps_cons (Or.inl rfl) wfOps_nil))
    wfOps_nil wfOps_nil (Or.inl rfl) rfl rfl (fun _ => rfl) (fun _ => rfl)
  simp only [srcConcat_nil, dstConcat_nil, List.nil_append, srcConcat_append,
    dstConcat_append, srcConcat_cons, dstConcat_cons, srcText_copy, dstText_copy,
    srcConcat_nil, dstConcat_nil, List.append_nil] at h1 h2
  obtain ⟨d1, d2, d3⟩ :=
    dropLastIfEmpty_good (mergeLoop [] [] (ds ++ [⟨OpCopy, []⟩]) 0 0 [] []) h3
  rw [mergePass1]
  exact ⟨by rw [d1, h1], by rw [d2, h2], d3⟩

/-- A single record is well formed when its opcode is one of the three edit
opcodes. -/
def wfd (d : diff) : Prop :=
  d.ty = OpCopy ∨ d.ty = OpInsert ∨ d.ty = OpDelete

theorem wfOps_single {d : diff} (h : wfd d) : wfOps [d] :=
  wfOps_cons h wfOps_nil

theorem srcText_mk_of_copy {t : Byte} {tx : List Byte} (h : t = OpCopy) :
    srcText ⟨t, tx⟩ = tx := by
  subst h; rfl

theorem shiftLoop_good_aux :
    ∀ (n : Nat) (rest : List diff), rest.length ≤ n →
    ∀ (pre : List diff) (x y : diff) (ch : Bool),
      srcConcat (shiftLoop pre x y rest ch).1
          = srcConcat pre ++ srcText x ++ srcText y ++ srcConcat rest ∧
      dstConcat (shiftLoop pre x y rest ch).1
          = dstConcat pre ++ dstText x ++ dstText y ++ dstConcat rest ∧
      (wfOps pre → wfd x → wfd y → wfOps rest →
        wfOps (shiftLoop pre x y rest ch).1) := by
  intro n
  induction n with
  | zero =>
    intro rest hlen pre x y ch
    have : rest = [] := List.length_eq_zero.mp (Nat.le_zero.mp hlen)
    subst this
    simp only [shiftLoop, srcConcat_append, dstConcat_append, srcConcat_cons,
      dstConcat_cons, srcConcat_nil, dstConcat_nil, List.append_nil, List.append_assoc]
    exact ⟨by trivial, by trivial, fun hp hx hy _ =>
      wfOps_append hp (wfOps_cons hx (wfOps_cons hy wfOps_nil))⟩
  | succ n ihn =>
    intro rest hlen pre x y ch
    cases rest with
    | nil =>
      simp only [shiftLoop, srcConcat_append, dstConcat_append, srcConcat_cons,
        dstConcat_cons, srcConcat_nil, dstConcat_nil, List.append_nil, List.append_assoc]
      exact ⟨by trivial, by trivial, fun hp hx hy _ =>
        wfOps_append hp (wfOps_cons hx (wfOps_cons hy wfOps_nil))⟩
    | cons z rest =>
      have hlen' : rest.length ≤ n := by
        simp only [List.length_cons] at hlen; omega
      rw [shiftLoop.eq_def]
      dsimp only
      by_cases hxz : x.ty = OpCopy ∧ z.ty = OpCopy
      · have hxI : ¬ x.ty = OpInsert := by rw [hxz.1]; exact op_ne_ci
        have hzI : ¬ z.ty = OpInsert := by rw [hxz.2]; exact op_ne_ci
        have hxD : ¬ x.ty = OpDelete := by rw [hxz.1]; exact op_ne_cd
        have hzD : ¬ z.ty = OpDelete := by rw [hxz.2]; exact op_ne_cd
        rw [if_pos hxz]
        by_cases hsuf : x.Text <:+ y.Text
        · -- shift left over the previous equality
          rw [if_pos hsuf]
          obtain ⟨i1, i2, i3⟩ := ihn rest hlen' pre
            ⟨y.ty, cleanAppend x.Text (y.Text.take (y.Text.length - x.Text.length))⟩
            ⟨z.ty, cleanAppend x.Text z.Text⟩ true
          have hyd := suffix_decomp hsuf
          refine ⟨?_, ?_, ?_⟩
          · rw [i1]
            by_cases hy : y.ty = OpInsert
            · simp [srcText, cleanAppend, hxI, hzI, hy, List.append_assoc]
            · simp only [srcText, cleanAppend, if_neg hxI, if_neg hzI, if_neg hy]
              conv_rhs => rw [hyd]
              simp [srcText, hzI, List.append_assoc]
          · rw [i2]
            by_cases hy : y.ty = OpDelete
            · simp [dstText, cleanAppend, hxD, hzD, hy, List.append_assoc]
            · simp only [dstText, cleanAppend, if_neg hxD, if_neg hzD, if_neg hy]
              conv_rhs => rw [hyd]
              simp [dstText, hzD, List.append_assoc]
          · intro hp hx hy hzr
            exact i3 hp hy (Or.inl hxz.2)
              (fun e he => hzr e (List.mem_cons_of_mem _ he))
        · rw [if_neg hsuf]
          by_cases hpre2 : z.Text <+: y.Text
          · -- shift right over the next equality
            rw [if_pos hpre2]
            have hyd := prefix_decomp hpre2
            cases rest with
            | nil =>
              refine ⟨?_, ?_, ?_⟩
              · by_cases hy : y.ty = OpInsert
                · simp [srcText, cleanAppend, hxI, hzI, hy, List.append_assoc]
                · simp only [srcConcat_append, srcConcat_cons, srcConcat_nil,
                    srcText, cleanAppend, if_neg hxI, if_neg hzI, if_neg hy,
                    List.append_nil]
                  conv_rhs => rw [hyd]
                  simp [List.append_assoc]
              · by_cases hy : y.ty = OpDelete
                · simp [dstText, cleanAppend, hxD, hzD, hy, List.append_assoc]
                · simp only [dstConcat_append, dstConcat_cons, dstConcat_nil,
                    dstText, cleanAppend, if_neg hxD, if_neg hzD, if_neg hy,
                    List.append_nil]
                  conv_rhs => rw [hyd]
                  simp [dstText, hzD, List.append_assoc]
              · intro hp hx hy _
                exact wfOps_append hp (wfOps_cons (Or.inl hxz.1)
                  (wfOps_cons hy wfOps_nil))
            | cons w rest2 =>
              have hlen2 : rest2.length ≤ n := by
                simp only [List.length_cons] at hlen; omega
              obtain ⟨i1, i2, i3⟩ := ihn rest2 hlen2
                (pre ++ [⟨x.ty, cleanAppend x.Text z.Text⟩])
                ⟨y.ty, cleanAppend (y.Text.drop z.Text.length) z.Text⟩ w true
              refine ⟨?_, ?_, ?_⟩
              · rw [i1]
                by_cases hy : y.ty = OpInsert
                · simp [srcText, cleanAppend, hxI, hzI, hy, List.append_assoc]
                · simp only [srcConcat_append, srcConcat_cons, srcConcat_nil,
                    srcText, cleanAppend, if_neg hxI, if_neg hzI, if_neg hy,
                    List.append_nil]
                  conv_rhs => rw [hyd]
                  simp [srcText, hzI, List.append_assoc]
              · rw [i2]
                by_cases hy : y.ty = OpDelete
                · simp [dstText, cleanAppend, hxD, hzD, hy, List.append_assoc]
                · simp only [dstConcat_append, dstConcat_cons, dstConcat_nil,
                    dstText, cleanAppend, if_neg hxD, if_neg hzD, if_neg hy,
                    List.append_nil]
                  conv_rhs => rw [hyd]
                  simp [dstText, hzD, List.append_assoc]
              · intro hp hx hy hzr
                have hww : wfd w := hzr w (List.mem_cons_of_mem _ (List.mem_cons_self _ _))
                have hr2 : wfOps rest2 := fun e he =>
                  hzr e (List.mem_cons_of_mem _ (List.mem_cons_of_mem _ he))
                exact i3 (wfOps_append hp (wfOps_single hx)) hy hww hr2
          · rw [if_neg hpre2]
            obtain ⟨i1, i2, i3⟩ := ihn rest hlen' (pre ++ [x]) y z ch
            refine ⟨?_, ?_, ?_⟩
            · rw [i1]; simp [List.append_assoc]
            · rw [i2]; simp [List.append_assoc]
            · intro hp hx hy hzr
              exact i3 (wfOps_append hp (wfOps_single hx)) hy
                (hzr z (List.mem_cons_self _ _))
                (fun e he => hzr e (List.mem_cons_of_mem _ he))
      · rw [if_neg hxz]
        obtain ⟨i1, i2, i3⟩ := ihn rest hlen' (pre ++ [x]) y z ch
        refine ⟨?_, ?_, ?_⟩
        · rw [i1]; simp [List.append_assoc]
        · rw [i2]; simp [List.append_assoc]
        · intro hp hx hy hzr
          exact i3 (wfOps_append hp (wfOps_single hx)) hy
            (hzr z (List.mem_cons_self _ _))
            (fun e he => hzr e (List.mem_cons_of_mem _ he))

theorem shiftPass_good (ds : List diff) (hw : wfOps ds) :
    srcConcat (shiftPass ds).1 = srcConcat ds ∧
    dstConcat (shiftPass ds).1 = dstConcat ds ∧
    wfOps (shiftPass ds).1 := by
  cases hds : ds with
  | nil => subst hds; exact ⟨rfl, rfl, hw⟩
  | cons a t =>
    cases ht : t with
    | nil => subst hds ht; exact ⟨rfl, rfl, hw⟩
    | cons b t2 =>
      cases ht2 : t2 with
      | nil => subst hds ht ht2; exact ⟨rfl, rfl, hw⟩
      | cons c rest =>
        subst hds ht ht2
        obtain ⟨i1, i2, i3⟩ := shiftLoop_good_aux (c :: rest).length (c :: rest)
          (Nat.le_refl _) [] a b false
        refine ⟨?_, ?_, ?_⟩
        · rw [shiftPass, i1]
          simp [List.append_assoc]
        · rw [shiftPass, i2]
          simp [List.append_assoc]
        · rw [shiftPass]
          exact i3 wfOps_nil (hw a (by simp)) (hw b (by simp))
            (fun e he => hw e (List.mem_cons_of_mem _ (List.mem_cons_of_mem _ he)))

theorem diffCleanupMerge_good :
    ∀ (fuel : Nat) (ds : List diff), wfOps ds →
      srcConcat (diffCleanupMerge fuel ds) = srcConcat ds ∧
      dstConcat (diffCleanupMerge fuel ds) = dstConcat ds ∧
      wfOps (diffCleanupMerge fuel ds) := by
  intro fuel
  induction fuel with
  | zero =>
    intro ds hw
    obtain ⟨m1, m2, m3⟩ := mergePass1_good ds hw
    obtain ⟨s1, s2, s3⟩ := shiftPass_good (mergePass1 ds) m3
    rw [diffCleanupMerge]
    exact ⟨by rw [s1, m1], by rw [s2, m2], s3⟩
  | succ fuel ih =>
    intro ds hw
    obtain ⟨m1, m2, m3⟩ := mergePass1_good ds hw
    obtain ⟨s1, s2, s3⟩ := shiftPass_good (mergePass1 ds) m3
    rw [diffCleanupMerge]
    by_cases hp : (shiftPass (mergePass1 ds)).2 = true
    · rw [if_pos hp]
      obtain ⟨r1, r2, r3⟩ := ih (shiftPass (mergePass1 ds)).1 s3
      exact ⟨by rw [r1, s1, m1], by rw [r2, s2, m2], r3⟩
    · rw [if_neg hp]
      exact ⟨by rw [s1, m1], by rw [s2, m2], s3⟩

theorem bIndexAux_spec :
    ∀ (l : List Byte) (pat : List Byte) (i j : Nat),
      bIndexAux pat l i = some j → i ≤ j ∧ pat <+: l.drop (j - i) := by
  intro l
  induction l with
  | nil =>
    intro pat i j h
    rw [bIndexAux] at h
    by_cases hp : pat <+: ([] : List Byte)
    · rw [if_pos hp] at h
      cases h
      exact ⟨Nat.le_refl _, by simpa using hp⟩
    · rw [if_neg hp] at h
      cases h
  | cons b t ih =>
    intro pat i j h
    rw [bIndexAux] at h
    by_cases hp : pat <+: b :: t
    · rw [if_pos hp] at h
      cases h
      exact ⟨Nat.le_refl _, by simpa using hp⟩
    · rw [if_neg hp] at h
      obtain ⟨h1, h2⟩ := ih pat (i + 1) j h
      refine ⟨by omega, ?_⟩
      have : (b :: t).drop (j - i) = t.drop (j - i - 1) := by
        have : j - i = (j - i - 1) + 1 := by omega
        rw [this]
        rfl
      rw [this]
      have : j - i - 1 = j - (i + 1) := by omega
      rw [this]
      exact h2

theorem bIndex_spec {l pat : List Byte} {j : Nat} (h : bIndex l pat = some j) :
    pat <+: l.drop j := by
  obtain ⟨_, h2⟩ := bIndexAux_spec l pat 0 j h
  simpa using h2

theorem bIndexAux_le :
    ∀ (l : List Byte) (pat : List Byte) (i j : Nat),
      bIndexAux pat l i = some j → j ≤ i + l.length := by
  intro l
  induction l with
  | nil =>
    intro pat i j h
    rw [bIndexAux] at h
    by_cases hp : pat <+: ([] : List Byte)
    · rw [if_pos hp] at h; cases h; simp
    · rw [if_neg hp] at h; cases h
  | cons b t ih =>
    intro pat i j h
    rw [bIndexAux] at h
    by_cases hp : pat <+: b :: t
    · rw [if_pos hp] at h; cases h; simp
    · rw [if_neg hp] at h
      have := ih pat (i + 1) j h
      simp only [List.length_cons]
      omega

theorem bytesIndexOf_bounds {s pat : List Byte} {i j : Nat}
    (h : bytesIndexOf s pat i = some j) : j ≤ s.length := by
  rw [bytesIndexOf] at h
  by_cases hc : i + 2 > s.length
  · rw [if_pos hc] at h; cases h
  · rw [if_neg hc] at h
    cases hb : bIndex (s.drop i) pat with
    | none => rw [hb] at h; cases h
    | some ind =>
      rw [hb] at h
      cases h
      have := bIndexAux_le (s.drop i) pat 0 ind hb
      simp only [List.length_drop, Nat.zero_add] at this
      omega

/-- The slice decomposition produced by one candidate of the half-match
inner loop: the common suffix around position i of l and position j of s,
and the common prefix after those positions, cut l and s into the five
pieces the source records. -/
theorem hmCandidate_decomp (l s : List Byte) (i j : Nat)
    (hi : i ≤ l.length) (hj : j ≤ s.length) :
    l = l.take (i - commonSuffixLength (l.take i) (s.take j))
        ++ ((s.take j).drop (j - commonSuffixLength (l.take i) (s.take j))
        ++ (s.drop j).take (commonPrefixLength (l.drop i) (s.drop j)))
        ++ l.drop (i + commonPrefixLength (l.drop i) (s.drop j)) ∧
    s = s.take (j - commonSuffixLength (l.take i) (s.take j))
        ++ ((s.take j).drop (j - commonSuffixLength (l.take i) (s.take j))
        ++ (s.drop j).take (commonPrefixLength (l.drop i) (s.drop j)))
        ++ s.drop (j + commonPrefixLength (l.drop i) (s.drop j)) := by
  set sfx := commonSuffixLength (l.take i) (s.take j) with hsfx
  set pfx := commonPrefixLength (l.drop i) (s.drop j) with hpfx
  have hsfxi : sfx ≤ i := by
    have := commonSuffixLength_le_left (l.take i) (s.take j)
    simp only [List.length_take] at this
    omega
  have hsfxj : sfx ≤ j := by
    have := commonSuffixLength_le_right (l.take i) (s.take j)
    simp only [List.length_take] at this
    omega
  have hcommonA : (s.take j).drop (j - sfx) = (l.take i).drop (i - sfx) := by
    have h := commonSuffixLength_drop (l.take i) (s.take j)
    rw [List.length_take, List.length_take, Nat.min_eq_left hi, Nat.min_eq_left hj] at h
    exact h.symm
  have hcommonB : (s.drop j).take pfx = (l.drop i).take pfx :=
    (commonPrefixLength_take (l.drop i) (s.drop j)).symm
  constructor
  · rw [hcommonA, hcommonB]
    have e1 : l.take (i - sfx) ++ (l.take i).drop (i - sfx) = l.take i := by
      have : l.take (i - sfx) = (l.take i).take (i - sfx) := by
        rw [List.take_take, Nat.min_eq_left (by omega)]
      rw [this, List.take_append_drop]
    have e2 : (l.drop i).take pfx ++ l.drop (i + pfx) = l.drop i := by
      have : l.drop (i + pfx) = (l.drop i).drop pfx := by
        rw [List.drop_drop]
      rw [this, List.take_append_drop]
    calc l = l.take i ++ l.drop i := (List.take_append_drop i l).symm
    _ = (l.take (i - sfx) ++ (l.take i).drop (i - sfx)) ++ ((l.drop i).take pfx ++ l.drop (i + pfx)) := by
          rw [e1, e2]
    _ = l.take (i - sfx) ++ ((l.take i).drop (i - sfx) ++ (l.drop i).take pfx) ++ l.drop (i + pfx) := by
          simp [List.append_assoc]
  · have e1 : s.take (j - sfx) ++ (s.take j).drop (j - sfx) = s.take j := by
      have : s.take (j - sfx) = (s.take j).take (j - sfx) := by
        rw [List.take_take, Nat.min_eq_left (by omega)]
      rw [this, List.take_append_drop]
    have e2 : (s.drop j).take pfx ++ s.drop (j + pfx) = s.drop j := by
      have : s.drop (j + pfx) = (s.drop j).drop pfx := by
        rw [List.drop_drop]
      rw [this, List.take_append_drop]
    calc s = s.take j ++ s.drop j := (List.take_append_drop j s).symm
    _ = (s.take (j - sfx) ++ (s.take j).drop (j - sfx)) ++ ((s.drop j).take pfx ++ s.drop (j + pfx)) := by
          rw [e1, e2]
    _ = s.take (j - sfx) ++ ((s.take j).drop (j - sfx) ++ (s.drop j).take pfx) ++ s.drop (j + pfx) := by
          simp [List.append_assoc]

/-- Invariant of the best candidate state: initial, or a genuine five-piece
decomposition of both inputs. -/
def HMSInv (l s : List Byte) (st : HMState) : Prop :=
  st = ⟨[], [], [], [], [], []⟩ ∨
  (l = st.longA ++ (st.commonA ++ st.commonB) ++ st.longB ∧
   s = st.shortA ++ (st.commonA ++ st.commonB) ++ st.shortB)

theorem diffHalfMatchILoop_inv (l s seed : List Byte) (i : Nat) (hi : i ≤ l.length) :
    ∀ (fuel start : Nat) (st : HMState), HMSInv l s st →
      HMSInv l s (diffHalfMatchILoop l s seed i fuel start st) := by
  intro fuel
  induction fuel with
  | zero => intro start st h; exact h
  | succ fuel ih =>
    intro start st h
    rw [diffHalfMatchILoop]
    cases hb : bytesIndexOf s seed start with
    | none => exact h
    | some j =>
      have hj : j ≤ s.length := bytesIndexOf_bounds hb
      apply ih
      by_cases hlt : st.commonA.length + st.commonB.length
          < commonSuffixLength (l.take i) (s.take j) + commonPrefixLength (l.drop i) (s.drop j)
      · rw [if_pos hlt]
        right
        obtain ⟨h1, h2⟩ := hmCandidate_decomp l s i j hi hj
        exact ⟨h1, h2⟩
      · rw [if_neg hlt]
        exact h

theorem diffHalfMatchI_spec (l s : List Byte) (i : Nat) (hi : i ≤ l.length)
    (hl : 0 < l.length) (hm : HalfMatch) (h : diffHalfMatchI l s i = some hm) :
    l = hm.t1A ++ hm.mid ++ hm.t1B ∧ s = hm.t2A ++ hm.mid ++ hm.t2B ∧
    l.length ≤ 2 * hm.mid.length := by
  rw [diffHalfMatchI] at h
  set best := diffHalfMatchILoop l s ((l.drop i).take (l.length / 4)) i
    (s.length + 2) 0 ⟨[], [], [], [], [], []⟩ with hbest
  by_cases hcond : (best.commonA.length + best.commonB.length) * 2 < l.length
  · rw [if_pos hcond] at h
    cases h
  · rw [if_neg hcond] at h
    have hinv := diffHalfMatchILoop_inv l s ((l.drop i).take (l.length / 4)) i hi
      (s.length + 2) 0 ⟨[], [], [], [], [], []⟩ (Or.inl rfl)
    rw [← hbest] at hinv
    rcases hinv with hinit | ⟨h1, h2⟩
    · exfalso
      rw [hinit] at hcond
      simp only [List.length_nil] at hcond
      omega
    · cases h
      refine ⟨by simpa using h1, by simpa using h2, ?_⟩
      dsimp only
      simp only [List.length_append]
      omega

theorem diffHalfMatch_spec (t1 t2 : List Byte) (u : Bool) (hm : HalfMatch)
    (h : diffHalfMatch t1 t2 u = some hm) :
    t1 = hm.t1A ++ hm.mid ++ hm.t1B ∧ t2 = hm.t2A ++ hm.mid ++ hm.t2B ∧
    max t1.length t2.length ≤ 2 * hm.mid.length := by
  rw [diffHalfMatch] at h
  by_cases hu : u = true
  · rw [if_pos hu] at h; cases h
  · rw [if_neg hu] at h
    dsimp only at h
    rcases Nat.lt_or_ge t2.length t1.length with hgt | hle
    · -- t1 is the longer side
      have e1 : (if t1.length > t2.length then t1 else t2) = t1 := if_pos hgt
      have e2 : (if t1.length > t2.length then t2 else t1) = t2 := if_pos hgt
      rw [e1, e2] at h
      by_cases hshort : t1.length < 4 ∨ t2.length * 2 < t1.length
      · rw [if_pos hshort] at h; cases h
      · rw [if_neg hshort] at h
        push_neg at hshort
        have hmax : max t1.length t2.length = t1.length := by omega
        have hi1 : (t1.length + 3) / 4 ≤ t1.length := by omega
        have hi2 : (t1.length + 1) / 2 ≤ t1.length := by omega
        have h0 : 0 < t1.length := by omega
        cases h1 : diffHalfMatchI t1 t2 ((t1.length + 3) / 4) with
        | none =>
          cases h2 : diffHalfMatchI t1 t2 ((t1.length + 1) / 2) with
          | none => rw [h1, h2] at h; cases h
          | some m2 =>
            rw [h1, h2] at h
            simp only at h
            rw [if_pos hgt] at h
            cases h
            obtain ⟨d1, d2, d3⟩ := diffHalfMatchI_spec t1 t2 _ hi2 h0 _ h2
            exact ⟨d1, d2, by omega⟩
        | some m1 =>
          obtain ⟨d1a, d2a, d3a⟩ := diffHalfMatchI_spec t1 t2 _ hi1 h0 _ h1
          cases h2 : diffHalfMatchI t1 t2 ((t1.length + 1) / 2) with
          | none =>
            rw [h1, h2] at h
            simp only at h
            rw [if_pos hgt] at h
            cases h
            exact ⟨d1a, d2a, by omega⟩
          | some m2 =>
            obtain ⟨d1b, d2b, d3b⟩ := diffHalfMatchI_spec t1 t2 _ hi2 h0 _ h2
            rw [h1, h2] at h
            simp only at h
            rw [if_pos hgt] at h
            by_cases hmm : m1.mid.length > m2.mid.length
            · rw [if_pos hmm] at h
              cases h
              exact ⟨d1a, d2a, by omega⟩
            · rw [if_neg hmm] at h
              cases h
              exact ⟨d1b, d2b, by omega⟩
    · -- t2 is at least as long: the longer side is t2 and the result is swapped
      have hngt : ¬ t1.length > t2.length := by omega
      have e1 : (if t1.length > t2.length then t1 else t2) = t2 := if_neg hngt
      have e2 : (if t1.length > t2.length then t2 else t1) = t1 := if_neg hngt
      rw [e1, e2] at h
      by_cases hshort : t2.length < 4 ∨ t1.length * 2 < t2.length
      · rw [if_pos hshort] at h; cases h
      · rw [if_neg hshort] at h
        push_neg at hshort
        have hmax : max t1.length t2.length = t2.length := by omega
        have hi1 : (t2.length + 3) / 4 ≤ t2.length := by omega
        have hi2 : (t2.length + 1) / 2 ≤ t2.length := by omega
        have h0 : 0 < t2.length := by
          rcases hshort with ⟨h4, _⟩
          omega
        cases h1 : diffHalfMatchI t2 t1 ((t2.length + 3) / 4) with
        | none =>
          cases h2 : diffHalfMatchI t2 t1 ((t2.length + 1) / 2) with
          | none => rw [h1, h2] at h; cases h
          | some m2 =>
            rw [h1, h2] at h
            simp only at h
            rw [if_neg hngt] at h
            cases h
            obtain ⟨d1, d2, d3⟩ := diffHalfMatchI_spec t2 t1 _ hi2 h0 _ h2
            exact ⟨d2, d1, by dsimp only; omega⟩
        | some m1 =>
          obtain ⟨d1a, d2a, d3a⟩ := diffHalfMatchI_spec t2 t1 _ hi1 h0 _ h1
          cases h2 : diffHalfMatchI t2 t1 ((t2.length + 1) / 2) with
          | none =>
            rw [h1, h2] at h
            simp only at h
            rw [if_neg hngt] at h
            cases h
            exact ⟨d2a, d1a, by dsimp only; omega⟩
          | some m2 =>
            obtain ⟨d1b, d2b, d3b⟩ := diffHalfMatchI_spec t2 t1 _ hi2 h0 _ h2
            rw [h1, h2] at h
            simp only at h
            rw [if_neg hngt] at h
            by_cases hmm : m1.mid.length > m2.mid.length
            · rw [if_pos hmm] at h
              cases h
              exact ⟨d2a, d1a, by dsimp only; omega⟩
            · rw [if_neg hmm] at h
              cases h
              exact ⟨d2b, d1b, by dsimp only; omega⟩

theorem Good_append {a1 b1 a2 b2 : List Byte} {s1 s2 : List diff}
    (h1 : Good a1 b1 s1) (h2 : Good a2 b2 s2) :
    Good (a1 ++ a2) (b1 ++ b2) (s1 ++ s2) := by
  obtain ⟨x1, y1, w1⟩ := h1
  obtain ⟨x2, y2, w2⟩ := h2
  exact ⟨by simp [x1, x2], by simp [y1, y2], wfOps_append w1 w2⟩

theorem Good_trivial (t1 t2 : List Byte) :
    Good t1 t2 [⟨OpDelete, t1⟩, ⟨OpInsert, t2⟩] := by
  refine ⟨by simp [srcConcat], by simp [dstConcat], ?_⟩
  intro d hd
  rcases List.mem_cons.mp hd with rfl | hd
  · exact Or.inr (Or.inr rfl)
  · rcases List.mem_cons.mp hd with rfl | hd
    · exact Or.inr (Or.inl rfl)
    · cases hd

theorem Good_single_insert (t2 : List Byte) : Good [] t2 [⟨OpInsert, t2⟩] := by
  refine ⟨by simp [srcConcat], by simp [dstConcat], ?_⟩
  intro d hd
  rcases List.mem_cons.mp hd with rfl | hd
  · exact Or.inr (Or.inl rfl)
  · cases hd

theorem Good_single_delete (t1 : List Byte) : Good t1 [] [⟨OpDelete, t1⟩] := by
  refine ⟨by simp [srcConcat], by simp [dstConcat], ?_⟩
  intro d hd
  rcases List.mem_cons.mp hd with rfl | hd
  · exact Or.inr (Or.inr rfl)
  · cases hd

theorem Good_single_copy (t : List Byte) : Good t t [⟨OpCopy, t⟩] := by
  refine ⟨by simp [srcConcat], by simp [dstConcat], ?_⟩
  intro d hd
  rcases List.mem_cons.mp hd with rfl | hd
  · exact Or.inl rfl
  · cases hd

@[simp] theorem clone_eq (b : List Byte) : clone b = b := rfl

theorem Good_contained_del (t1 t2 rest : List Byte) (i : Nat)
    (hrest : t2 ++ rest = t1.drop i) :
    Good t1 t2 [⟨OpDelete, clone (t1.take i)⟩, ⟨OpCopy, clone t2⟩,
                ⟨OpDelete, clone (t1.drop (i + t2.length))⟩] := by
  have hdrop2 : t1.drop (i + t2.length) = rest := by
    rw [← List.drop_drop, ← hrest, List.drop_left]
  refine ⟨?_, ?_, ?_⟩
  · simp only [srcConcat_cons, srcConcat_nil, srcText_del, srcText_copy, clone_eq,
      List.append_nil, hdrop2]
    calc t1.take i ++ (t2 ++ rest) = t1.take i ++ t1.drop i := by rw [hrest]
    _ = t1 := List.take_append_drop i t1
  · simp [dstConcat]
  · intro d hd
    rcases List.mem_cons.mp hd with rfl | hd
    · exact Or.inr (Or.inr rfl)
    · rcases List.mem_cons.mp hd with rfl | hd
      · exact Or.inl rfl
      · rcases List.mem_cons.mp hd with rfl | hd
        · exact Or.inr (Or.inr rfl)
        · cases hd

theorem Good_contained_ins (t1 t2 rest : List Byte) (i : Nat)
    (hrest : t1 ++ rest = t2.drop i) :
    Good t1 t2 [⟨OpInsert, clone (t2.take i)⟩, ⟨OpCopy, clone t1⟩,
                ⟨OpInsert, clone (t2.drop (i + t1.length))⟩] := by
  have hdrop2 : t2.drop (i + t1.length) = rest := by
    rw [← List.drop_drop, ← hrest, List.drop_left]
  refine ⟨?_, ?_, ?_⟩
  · simp [srcConcat]
  · simp only [dstConcat_cons, dstConcat_nil, dstText_ins, dstText_copy, clone_eq,
      List.append_nil, hdrop2]
    calc t2.take i ++ (t1 ++ rest) = t2.take i ++ t2.drop i := by rw [hrest]
    _ = t2 := List.take_append_drop i t2
  · intro d hd
    rcases List.mem_cons.mp hd with rfl | hd
    · exact Or.inr (Or.inl rfl)
    · rcases List.mem_cons.mp hd with rfl | hd
      · exact Or.inl rfl
      · rcases List.mem_cons.mp hd with rfl | hd
        · exact Or.inr (Or.inl rfl)
        · cases hd

theorem Good_of_merge {t1 t2 : List Byte} {fuel : Nat} {ds : List diff}
    (h : Good t1 t2 ds) : Good t1 t2 (diffCleanupMerge fuel ds) := by
  obtain ⟨h1, h2, h3⟩ := h
  obtain ⟨m1, m2, m3⟩ := diffCleanupMerge_good fuel ds h3
  exact ⟨by rw [m1, h1], by rw [m2, h2], m3⟩

theorem Good_wrap (A1 A2 B1 B2 M1 M2 : List Byte) (mid : List diff)
    (hA : A1 = A2) (hB : B1 = B2) (hm : Good M1 M2 mid) :
    Good (A1 ++ (M1 ++ B1)) (A2 ++ (M2 ++ B2))
      (if B1.length ≠ 0 then
        (if A1.length ≠ 0 then ⟨OpCopy, clone A1⟩ :: mid else mid) ++
          [⟨OpCopy, clone B1⟩]
      else (if A1.length ≠ 0 then ⟨OpCopy, clone A1⟩ :: mid else mid)) := by
  subst hA
  subst hB
  have hc : ∀ X : List Byte, Good X X [(⟨OpCopy, clone X⟩ : diff)] := by
    intro X
    rw [clone_eq]
    exact Good_single_copy X
  by_cases hBl : B1.length ≠ 0
  · rw [if_pos hBl]
    by_cases hAl : A1.length ≠ 0
    · rw [if_pos hAl]
      have := Good_append (hc A1) (Good_append hm (hc B1))
      simpa [List.append_assoc] using this
    · rw [if_neg hAl]
      have hA0 : A1 = [] := by
        cases hx : A1 with
        | nil => rfl
        | cons a t => rw [hx] at hAl; simp at hAl
      subst hA0
      have := Good_append hm (hc B1)
      simpa using this
  · rw [if_neg hBl]
    have hB0 : B1 = [] := by
      cases hx : B1 with
      | nil => rfl
      | cons a t => rw [hx] at hBl; simp at hBl
    subst hB0
    by_cases hAl : A1.length ≠ 0
    · rw [if_pos hAl]
      have := Good_append (hc A1) hm
      simpa using this
    · rw [if_neg hAl]
      have hA0 : A1 = [] := by
        cases hx : A1 with
        | nil => rfl
        | cons a t => rw [hx] at hAl; simp at hAl
      subst hA0
      simpa using hm

/-- The central invariant of the diff engine: every script diffMainBytes
returns consumes exactly text1 as its Copy and Delete spans and produces
exactly text2 as its Copy and Insert spans, using only the three edit
opcodes.  The proof is by induction on the recursion fuel, covering the
equality shortcut, prefix and suffix trimming, the containment and single
byte base cases, half-match splits, bisection splits, the trivial fallback,
and the merge cleanup pass. -/
theorem good_diffMainBytes :
    ∀ (fuel : Nat) (t1 t2 : List Byte) (exp : Nat → Bool) (tm : Bool) (tk : Nat),
      Good t1 t2 (diffMainBytes fuel t1 t2 exp tm tk).1 := by
  intro fuel
  induction fuel with
  | zero =>
    intro t1 t2 exp tm tk
    rw [diffMainBytes]
    exact Good_trivial t1 t2
  | succ fuel ih =>
    have hsplit : ∀ (r1 r2 : List Byte) (x y : Nat) (exp : Nat → Bool) (tm : Bool) (tk : Nat),
        Good r1 r2 (diffBisectSplit fuel r1 r2 x y exp tm tk).1 := by
      intro r1 r2 x y exp tm tk
      rw [diffBisectSplit]
      have h1 := ih (r1.take x) (r2.take y) exp tm tk
      have h2 := ih (r1.drop x) (r2.drop y) exp tm
        (diffMainBytes fuel (r1.take x) (r2.take y) exp tm tk).2
      have := Good_append h1 h2
      rw [List.take_append_drop, List.take_append_drop] at this
      exact this
    have hbisect : ∀ (r1 r2 : List Byte) (exp : Nat → Bool) (tm : Bool) (tk : Nat),
        Good r1 r2 (diffBisect fuel r1 r2 exp tm tk).1 := by
      intro r1 r2 exp tm tk
      rw [diffBisect]
      split
      · next xy tick' _ => exact hsplit r1 r2 xy.1 xy.2 exp tm tick'
      · next tick' _ => exact Good_trivial r1 r2
    have hcompute : ∀ (t1 t2 : List Byte) (exp : Nat → Bool) (tm : Bool) (tk : Nat),
        Good t1 t2 (diffCompute fuel t1 t2 exp tm tk).1 := by
      intro t1 t2 exp tm tk
      rw [diffCompute]
      by_cases h1 : t1.length = 0
      · rw [if_pos h1]
        have : t1 = [] := List.length_eq_zero.mp h1
        subst this
        exact Good_single_insert t2
      · rw [if_neg h1]
        by_cases h2 : t2.length = 0
        · rw [if_pos h2]
          have : t2 = [] := List.length_eq_zero.mp h2
          subst this
          exact Good_single_delete t1
        · rw [if_neg h2]
          dsimp only
          rcases Nat.lt_or_ge t2.length t1.length with hgt | hle
          · have e1 : (if t1.length > t2.length then t1 else t2) = t1 := if_pos hgt
            have e2 : (if t1.length > t2.length then t2 else t1) = t2 := if_pos hgt
            have e3 : (if t1.length > t2.length then OpDelete else OpInsert) = OpDelete :=
              if_pos hgt
            rw [e1, e2, e3]
            cases hidx : bIndex t1 t2 with
            | some i =>
              obtain ⟨rest, hrest⟩ := bIndex_spec hidx
              exact Good_contained_del t1 t2 rest i hrest
            | none =>
              by_cases hs1 : t2.length = 1
              · rw [if_pos hs1]
                exact Good_trivial t1 t2
              · rw [if_neg hs1]
                cases hhm : diffHalfMatch t1 t2 (!tm) with
                | some hmv =>
                  obtain ⟨d1, d2, _⟩ := diffHalfMatch_spec t1 t2 (!tm) hmv hhm
                  dsimp only
                  have ga := ih hmv.t1A hmv.t2A exp tm tk
                  have gb := ih hmv.t1B hmv.t2B exp tm
                    (diffMainBytes fuel hmv.t1A hmv.t2A exp tm tk).2
                  have gmid := Good_single_copy (clone hmv.mid)
                  rw [clone_eq] at gmid
                  have := Good_append ga (Good_append gmid gb)
                  rw [← List.append_assoc, ← List.append_assoc, ← d1, ← d2] at this
                  simpa [List.append_assoc] using this
                | none => exact hbisect t1 t2 exp tm tk
          · have hngt : ¬ t1.length > t2.length := by omega
            have e1 : (if t1.length > t2.length then t1 else t2) = t2 := if_neg hngt
            have e2 : (if t1.length > t2.length then t2 else t1) = t1 := if_neg hngt
            have e3 : (if t1.length > t2.length then OpDelete else OpInsert) = OpInsert :=
              if_neg hngt
            rw [e1, e2, e3]
            cases hidx : bIndex t2 t1 with
            | some i =>
              obtain ⟨rest, hrest⟩ := bIndex_spec hidx
              exact Good_contained_ins t1 t2 rest i hrest
            | none =>
              by_cases hs1 : t1.length = 1
              · rw [if_pos hs1]
                exact Good_trivial t1 t2
              · rw [if_neg hs1]
                cases hhm : diffHalfMatch t1 t2 (!tm) with
                | some hmv =>
                  obtain ⟨d1, d2, _⟩ := diffHalfMatch_spec t1 t2 (!tm) hmv hhm
                  dsimp only
                  have ga := ih hmv.t1A hmv.t2A exp tm tk
                  have gb := ih hmv.t1B hmv.t2B exp tm
                    (diffMainBytes fuel hmv.t1A hmv.t2A exp tm tk).2
                  have gmid := Good_single_copy (clone hmv.mid)
                  rw [clone_eq] at gmid
                  have := Good_append ga (Good_append gmid gb)
                  rw [← List.append_assoc, ← List.append_assoc, ← d1, ← d2] at this
                  simpa [List.append_assoc] using this
                | none => exact hbisect t1 t2 exp tm tk
    intro t1 t2 exp tm tk
    rw [diffMainBytes]
    by_cases heq : t1 = t2
    · rw [if_pos heq]
      subst heq
      by_cases h0 : 0 < t1.length
      · rw [if_pos h0]
        exact Good_single_copy t1
      · rw [if_neg h0]
        have : t1 = [] := by
          cases t1 with
          | nil => rfl
          | cons a t => exact absurd (by simp) h0
        subst this
        exact ⟨rfl, rfl, wfOps_nil⟩
    · rw [if_neg heq]
      dsimp only
      apply Good_of_merge
      set cl := commonPrefixLength t1 t2 with hcl
      set t1d := t1.drop cl with ht1d
      set t2d := t2.drop cl with ht2d
      set sl := commonSuffixLength t1d t2d with hsl
      have hg := hcompute (t1d.take (t1d.length - sl)) (t2d.take (t2d.length - sl)) exp tm tk
      have hpre : t1.take cl = t2.take cl := commonPrefixLength_take t1 t2
      have hsuf : t1d.drop (t1d.length - sl) = t2d.drop (t2d.length - sl) :=
        commonSuffixLength_drop t1d t2d
      have ht1 : t1 = t1.take cl ++ (t1d.take (t1d.length - sl) ++ t1d.drop (t1d.length - sl)) := by
        rw [List.take_append_drop, ht1d, List.take_append_drop]
      have ht2 : t2 = t2.take cl ++ (t2d.take (t2d.length - sl) ++ t2d.drop (t2d.length - sl)) := by
        rw [List.take_append_drop, ht2d, List.take_append_drop]
      have HW := Good_wrap (t1.take cl) (t2.take cl)
        (t1d.drop (t1d.length - sl)) (t2d.drop (t2d.length - sl))
        (t1d.take (t1d.length - sl)) (t2d.take (t2d.length - sl))
        (diffCompute fuel (t1d.take (t1d.length - sl)) (t2d.take (t2d.length - sl)) exp tm tk).1
        hpre hsuf hg
      rw [← ht1, ← ht2] at HW
      exact HW

/-! CRC-32 with the IEEE polynomial (hash/crc32 ChecksumIEEE), in its
standard reflected bitwise form. -/

/-- One shift-and-conditionally-xor round of the reflected CRC-32. -/
def crc32Round (c : Nat) : Nat :=
  if c &&& 1 = 1 then (c >>> 1) ^^^ 0xEDB88320 else c >>> 1

/-- Fold one byte into the running CRC.  Go bytes are below 256; the mask
keeps the model total on Nat. -/
def crc32Byte (crc : Nat) (b : Byte) : Nat :=
  crc32Round^[8] (crc ^^^ (b &&& 255))

/-- crc32.ChecksumIEEE over a byte sequence. -/
def crc32 (data : List Byte) : Nat :=
  data.foldl crc32Byte 0xFFFFFFFF ^^^ 0xFFFFFFFF

/-- The four CRC bytes in the order digest.Sum appends them (big endian). -/
def crcSum (c : Nat) : List Byte :=
  [(c >>> 24) &&& 255, (c >>> 16) &&& 255, (c >>> 8) &&& 255, c &&& 255]

/-- Error kinds of the streaming decoders. -/
inductive PErr where
  | eof
  | overflow
  | crcMismatch
  | extraData
  | badOp (b : Byte)
deriving Repr, DecidableEq

/-! The varint patch format of the package variant (the file defining
MakePatchTimeout; this is the wire format of the README): records are an
opcode byte, a base-128 varint length, and for Insert the payload bytes;
the patch ends with the opcode K followed by four CRC-32 bytes. -/
namespace VarintFormat

/-- binary.PutUvarint: little-endian base-128 groups, continuation bit on
every byte except the last. -/
def putUvarint (n : Nat) : List Byte :=
  if h : n < 128 then [n]
  else (128 + n % 128) :: putUvarint (n / 128)
termination_by n
decreasing_by exact Nat.div_lt_self (by omega) (by omega)

/-- Number of bytes of the varint encoding, the size loop of encodedLen in
the source (copied there from the varint code). -/
def uvarintLen (n : Nat) : Nat :=
  if h : n < 128 then 1
  else uvarintLen (n / 128) + 1
termination_by n
decreasing_by exact Nat.div_lt_self (by omega) (by omega)

/-- encodedLen of the package variant: one opcode byte, the varint size
bytes, and the payload for Insert records. -/
def encodedLen (diffs : List diff) : Nat :=
  diffs.foldl (fun total d =>
    total + 1 + uvarintLen d.Text.length +
      (if d.ty = OpInsert then d.Text.length else 0)) 0

/-- The record stream the encoder writes for a script. -/
def encodeOps (diffs : List diff) : List Byte :=
  (diffs.map (fun d =>
    d.ty :: (putUvarint d.Text.length ++ (if d.ty = OpInsert then d.Text else [])))).flatten

/-- MakePatchTimeout from the package variant: diff, naive fallback check,
record stream, then the checksum record K plus four CRC bytes. -/
def MakePatchTimeout (before after : List Byte) (timed : Bool) (expired : Nat → Bool) :
    List Byte :=
  let diffs := diffMain before after timed expired
  let naiveDiff : List diff := [⟨OpInsert, after⟩]
  let diffs := if encodedLen naiveDiff < encodedLen diffs then naiveDiff else diffs
  encodeOps diffs ++ OpCRC :: crcSum (crc32 after)

/-- MakePatch of the package variant delegates to MakePatchTimeout with the
default five second timeout, hence an armed deadline. -/
def MakePatch (before after : List Byte) (expired : Nat → Bool) : List Byte :=
  MakePatchTimeout before after true expired

/-- binary.ReadUvarint.  The accumulated value, shift and byte count follow
the source; Go reports overflow past ten bytes or when the tenth byte
exceeds one. -/
def readUvarintAux : List Byte → Nat → Nat → Nat → Except PErr (Nat × List Byte)
  | [], _, _, _ => .error .eof
  | b :: rest, x, s, i =>
    if i = 10 then .error .overflow
    else if b < 128 then
      if i = 9 ∧ b > 1 then .error .overflow
      else .ok (x ||| (b <<< s), rest)
    else readUvarintAux rest (x ||| ((b &&& 127) <<< s)) (s + 7) (i + 1)

/-- Read one varint length from the head of the patch. -/
def readUvarint (l : List Byte) : Except PErr (Nat × List Byte) :=
  readUvarintAux l 0 0 0

theorem readUvarintAux_len :
    ∀ (l : List Byte) (x s i tl : Nat) (r : List Byte),
      readUvarintAux l x s i = .ok (tl, r) → r.length < l.length := by
  intro l
  induction l with
  | nil => intro x s i tl r h; simp [readUvarintAux] at h
  | cons b rest ih =>
    intro x s i tl r h
    simp only [readUvarintAux] at h
    by_cases hi : i = 10
    · simp [hi] at h
    · simp only [hi, if_false] at h
      by_cases hb : b < 128
      · simp only [hb, if_true] at h
        by_cases h9 : i = 9 ∧ b > 1
        · simp [h9] at h
        · simp only [h9, if_false, Except.ok.injEq, Prod.mk.injEq] at h
          simp [← h.2]
      · simp only [hb, if_false] at h
        have := ih _ _ _ _ _ h
        simp only [List.length_cons]
        omega

theorem readUvarint_len {l : List Byte} {tl : Nat} {r : List Byte}
    (h : readUvarint l = .ok (tl, r)) : r.length < l.length :=
  readUvarintAux_len l 0 0 0 tl r h

/-- The record loop of ApplyPatch in the package variant.  The state is the
unread source, the unread patch, the output written so far (the model of
the multi-writer that also feeds the CRC), and whether the checksum record
has been seen.  Go int64 lengths cannot exceed 2^63; the Nat model keeps
exact values, which agrees on every byte-bounded patch. -/
def applyLoop (beforeRem patch out : List Byte) (crcRead : Bool) :
    Except PErr (List Byte) :=
  match patch with
  | [] => .ok out
  | op :: rest =>
    if crcRead then .error .extraData
    else if op = OpCRC then
      if 4 ≤ rest.length then
        if rest.take 4 = crcSum (crc32 out) then
          applyLoop beforeRem (rest.drop 4) out true
        else .error .crcMismatch
      else .error .eof
    else
      match hv : readUvarint rest with
      | .error e => .error e
      | .ok (tl, r1) =>
        if op = OpCopy then
          if tl ≤ beforeRem.length then
            applyLoop (beforeRem.drop tl) r1 (out ++ beforeRem.take tl) crcRead
          else .error .eof
        else if op = OpInsert then
          if tl ≤ r1.length then
            applyLoop beforeRem (r1.drop tl) (out ++ r1.take tl) crcRead
          else .error .eof
        else if op = OpDelete then
          if tl ≤ beforeRem.length then
            applyLoop (beforeRem.drop tl) r1 out crcRead
          else .error .eof
        else .error (.badOp op)
termination_by patch.length
decreasing_by
  all_goals simp only [List.length_cons, List.length_drop]
  · omega
  · have := readUvarint_len hv; omega
  · have := readUvarint_len hv; omega
  · have := readUvarint_len hv; omega

/-- ApplyPatch of the package variant: a pure streaming state machine; an
error means the bytes already sent to the writer are discarded. -/
def ApplyPatch (before patch : List Byte) : Except PErr (List Byte) :=
  applyLoop before patch [] false

theorem or_shift_combine (x n s : Nat) :
    (x ||| ((n % 128) <<< s)) ||| ((n / 128) <<< (s + 7)) = x ||| (n <<< s) := by
  have h1 : n % 128 = n % 2 ^ 7 := by norm_num
  have h2 : n / 128 = n >>> 7 := by rw [Nat.shiftRight_eq_div_pow]
  apply Nat.eq_of_testBit_eq
  intro j
  rw [h1, h2]
  simp only [Nat.testBit_or, Nat.testBit_shiftLeft, Nat.testBit_shiftRight,
    Nat.testBit_mod_two_pow]
  by_cases hs : s ≤ j
  · by_cases h7 : j < s + 7
    · have hn : ¬ (j ≥ s + 7) := by omega
      have hlt : j - s < 7 := by omega
      simp [hs, hn, hlt]
    · have h7' : j ≥ s + 7 := by omega
      have hlt : ¬ (j - s < 7) := by omega
      have he : 7 + (j - (s + 7)) = j - s := by omega
      simp [hs, h7', hlt, he, Bool.or_assoc]
  · have hn : ¬ (j ≥ s + 7) := by omega
    simp [hs, hn]

theorem readUvarintAux_put :
    ∀ (n x s i : Nat) (r : List Byte), n < 2 * 128 ^ (9 - i) → i ≤ 9 →
      readUvarintAux (putUvarint n ++ r) x s i = .ok (x ||| (n <<< s), r) := by
  intro n
  induction n using Nat.strong_induction_on with
  | _ n ih =>
    intro x s i r hb hi
    rw [putUvarint]
    by_cases h : n < 128
    · rw [dif_pos h]
      rw [List.singleton_append, readUvarintAux]
      have hn10 : ¬ i = 10 := by omega
      rw [if_neg hn10, if_pos h]
      have hn9 : ¬ (i = 9 ∧ n > 1) := by
        rintro ⟨rfl, hgt⟩
        norm_num at hb
        omega
      rw [if_neg hn9]
    · rw [dif_neg h]
      rw [List.cons_append, readUvarintAux]
      have hilt : i < 9 := by
        rcases Nat.lt_or_ge i 9 with h9 | h9
        · exact h9
        · exfalso
          have h9' : i = 9 := by omega
          subst h9'
          norm_num at hb
          omega
      rw [if_neg (by omega : ¬ i = 10)]
      rw [if_neg (by omega : ¬ 128 + n % 128 < 128)]
      have harg : (128 + n % 128) &&& 127 = n % 128 := by
        have h127 : (127 : Nat) = 2 ^ 7 - 1 := by norm_num
        rw [h127, Nat.and_pow_two_sub_one_eq_mod]
        have hm : n % 128 < 128 := Nat.mod_lt _ (by omega)
        have h128 : (2 : Nat) ^ 7 = 128 := by norm_num
        rw [h128]
        omega
      rw [harg]
      have hdiv : n / 128 < n := Nat.div_lt_self (by omega) (by omega)
      have hbound : n / 128 < 2 * 128 ^ (9 - (i + 1)) := by
        have he : 9 - i = (9 - (i + 1)) + 1 := by omega
        rw [he, pow_succ] at hb
        generalize (128 : Nat) ^ (9 - (i + 1)) = A at hb ⊢
        omega
      rw [ih (n / 128) hdiv (x ||| ((n % 128) <<< s)) (s + 7) (i + 1) r hbound (by omega)]
      rw [or_shift_combine]

theorem readUvarint_put (n : Nat) (r : List Byte) (h : n < 2 ^ 64) :
    readUvarint (putUvarint n ++ r) = .ok (n, r) := by
  have h' : n < 2 * 128 ^ (9 - 0) := by
    have he : (2 : Nat) * 128 ^ 9 = 2 ^ 64 := by norm_num
    simp only [Nat.sub_zero]
    omega
  rw [readUvarint, readUvarintAux_put n 0 0 0 r h' (by omega)]
  rw [Nat.zero_or, Nat.shiftLeft_zero]

theorem putUvarint_length : ∀ n : Nat, (putUvarint n).length = uvarintLen n := by
  intro n
  induction n using Nat.strong_induction_on with
  | _ n ih =>
    rw [putUvarint, uvarintLen]
    by_cases h : n < 128
    · rw [dif_pos h, dif_pos h]
      rfl
    · rw [dif_neg h, dif_neg h]
      simp only [List.length_cons]
      rw [ih (n / 128) (Nat.div_lt_self (by omega) (by omega))]

theorem encodedLen_shift (s : List diff) (a : Nat) :
    s.foldl (fun total d =>
      total + 1 + uvarintLen d.Text.length +
        (if d.ty = OpInsert then d.Text.length else 0)) a
    = a + encodedLen s := by
  induction s generalizing a with
  | nil => simp [encodedLen]
  | cons d t ih =>
    rw [encodedLen, List.foldl_cons, List.foldl_cons, ih, ih]
    omega

theorem encodeOps_length (s : List diff) : (encodeOps s).length = encodedLen s := by
  induction s with
  | nil => simp [encodeOps, encodedLen]
  | cons d t ih =>
    have hc : encodeOps (d :: t)
        = d.ty :: ((putUvarint d.Text.length ++
            (if d.ty = OpInsert then d.Text else [])) ++ encodeOps t) := by
      simp [encodeOps]
    rw [hc, encodedLen, List.foldl_cons, encodedLen_shift, ← ih]
    simp only [List.length_append, List.length_cons, putUvarint_length]
    by_cases h : d.ty = OpInsert
    · simp only [if_pos h]
      omega
    · simp only [if_neg h]
      simp only [List.length_nil]
      omega

theorem mem_text_le :
    ∀ (s : List diff), wfOps s → ∀ d ∈ s,
      d.Text.length ≤ (srcConcat s).length + (dstConcat s).length := by
  intro s
  induction s with
  | nil => intro _ d hd; cases hd
  | cons a t ih =>
    intro hw d hd
    have hwt : wfOps t := fun e he => hw e (List.mem_cons_of_mem _ he)
    simp only [srcConcat_cons, dstConcat_cons, List.length_append]
    rcases List.mem_cons.mp hd with rfl | hdt
    · have ha := hw d (List.mem_cons_self d t)
      rcases d with ⟨ty, tx⟩
      rcases ha with h | h | h <;> (dsimp only at h ⊢; subst h) <;> simp [srcText, dstText, OpCopy, OpInsert, OpDelete] <;> omega
    · have := ih hwt d hdt
      omega

theorem applyLoop_nil (b out : List Byte) (c : Bool) :
    applyLoop b [] out c = .ok out := by
  rw [applyLoop]

theorem applyLoop_cons_crc (b rest out : List Byte) :
    applyLoop b (OpCRC :: rest) out false =
      if 4 ≤ rest.length then
        (if rest.take 4 = crcSum (crc32 out) then applyLoop b (rest.drop 4) out true
          else .error .crcMismatch)
        else .error .eof := by
  rw [applyLoop]
  simp only [Bool.false_eq_true, if_false, eq_self_iff_true, if_true]

theorem applyLoop_cons_op (b : List Byte) (op : Byte) (rest out r1 : List Byte)
    (tl : Nat) (hop : ¬ op = OpCRC) (hv : readUvarint rest = .ok (tl, r1)) :
    applyLoop b (op :: rest) out false =
      if op = OpCopy then
        (if tl ≤ b.length then applyLoop (b.drop tl) r1 (out ++ b.take tl) false
          else .error .eof)
      else if op = OpInsert then
        (if tl ≤ r1.length then applyLoop b (r1.drop tl) (out ++ r1.take tl) false
          else .error .eof)
      else if op = OpDelete then
        (if tl ≤ b.length then applyLoop (b.drop tl) r1 out false
          else .error .eof)
      else .error (.badOp op) := by
  rw [applyLoop]
  simp only [Bool.false_eq_true, if_false]
  rw [if_neg hop]
  split
  · next e heq =>
    rw [hv] at heq
    cases heq
  · next tl' r1' heq =>
    rw [hv] at heq
    cases heq
    rfl

theorem applyLoop_encode :
    ∀ (s : List diff) (extra rest out : List Byte),
      wfOps s → (∀ d ∈ s, d.Text.length < 2 ^ 64) →
      applyLoop (srcConcat s ++ extra) (encodeOps s ++ rest) out false
        = applyLoop extra rest (out ++ dstConcat s) false := by
  intro s
  induction s with
  | nil =>
    intro extra rest out _ _
    simp [encodeOps]
  | cons d t ih =>
    intro extra rest out hw hlen
    have hdl := hlen d (List.mem_cons_self d t)
    have hwt : wfOps t := fun e he => hw e (List.mem_cons_of_mem _ he)
    have hlt : ∀ e ∈ t, e.Text.length < 2 ^ 64 :=
      fun e he => hlen e (List.mem_cons_of_mem _ he)
    have henc : encodeOps (d :: t)
        = d.ty :: ((putUvarint d.Text.length ++
            (if d.ty = OpInsert then d.Text else [])) ++ encodeOps t) := by
      simp [encodeOps]
    rw [henc]
    have hd := hw d (List.mem_cons_self d t)
    rcases d with ⟨ty, tx⟩
    rcases hd with h | h | h <;> (dsimp only at h hdl ⊢; subst h)
    · -- a Copy record consumes its text from the source and emits it
      rw [if_neg op_ne_ci]
      simp only [srcConcat_cons, srcText_copy, dstConcat_cons, dstText_copy,
        List.cons_append, List.append_nil, List.append_assoc]
      rw [applyLoop_cons_op _ OpCopy _ _ _ _ (by decide)
        (readUvarint_put tx.length (encodeOps t ++ rest) hdl)]
      rw [if_pos rfl]
      rw [if_pos (show tx.length ≤ (tx ++ (srcConcat t ++ extra)).length by
        simp only [List.length_append]; omega)]
      rw [List.take_left, List.drop_left]
      rw [ih extra rest (out ++ tx) hwt hlt]
      rw [List.append_assoc]
    · -- an Insert record takes its text from the patch and emits it
      rw [if_pos rfl]
      simp only [srcConcat_cons, srcText_ins, dstConcat_cons, dstText_ins,
        List.cons_append, List.nil_append, List.append_assoc]
      rw [applyLoop_cons_op _ OpInsert _ _ _ _ (by decide)
        (readUvarint_put tx.length (tx ++ (encodeOps t ++ rest)) hdl)]
      rw [if_neg (show ¬ OpInsert = OpCopy by decide)]
      rw [if_pos rfl]
      rw [if_pos (show tx.length ≤ (tx ++ (encodeOps t ++ rest)).length by
        simp only [List.length_append]; omega)]
      rw [List.take_left, List.drop_left]
      rw [ih extra rest (out ++ tx) hwt hlt]
      rw [List.append_assoc]
    · -- a Delete record consumes its text from the source and emits nothing
      rw [if_neg (show ¬ OpDelete = OpInsert by decide)]
      simp only [srcConcat_cons, srcText_del, dstConcat_cons, dstText_del,
        List.cons_append, List.append_nil, List.nil_append, List.append_assoc]
      rw [applyLoop_cons_op _ OpDelete _ _ _ _ (by decide)
        (readUvarint_put tx.length (encodeOps t ++ rest) hdl)]
      rw [if_neg (show ¬ OpDelete = OpCopy by decide)]
      rw [if_neg (show ¬ OpDelete = OpInsert by decide)]
      rw [if_pos rfl]
      rw [if_pos (show tx.length ≤ (tx ++ (srcConcat t ++ extra)).length by
        simp only [List.length_append]; omega)]
      rw [List.drop_left]
      rw [ih extra rest out hwt hlt]

theorem applyLoop_crc_trailer (b after : List Byte) :
    applyLoop b (OpCRC :: crcSum (crc32 after)) after false = .ok after := by
  rw [applyLoop_cons_crc]
  rw [if_pos (show 4 ≤ (crcSum (crc32 after)).length from by simp [crcSum])]
  rw [if_pos (show (crcSum (crc32 after)).take 4 = crcSum (crc32 after) from rfl)]
  rw [show (crcSum (crc32 after)).drop 4 = [] from rfl]
  rw [applyLoop_nil]

theorem varint_roundtrip (before after : List Byte) (exp : Nat → Bool)
    (h1 : before.length < 2 ^ 63) (h2 : after.length < 2 ^ 63) :
    ApplyPatch before (MakePatch before after exp) = .ok after := by
  have hp : (2 : Nat) ^ 63 + 2 ^ 63 = 2 ^ 64 := by norm_num
  rw [MakePatch, MakePatchTimeout, ApplyPatch]
  obtain ⟨hsrc, hdst, hwf⟩ :
      Good before after (diffMain before after true exp) :=
    good_diffMainBytes (before.length + after.length + 1) before after exp true 0
  set ds := diffMain before after true exp with hds
  have hlen : ∀ d ∈ ds, d.Text.length < 2 ^ 64 := by
    intro d hd
    have hle := mem_text_le ds hwf d hd
    rw [hsrc, hdst] at hle
    omega
  by_cases hn : encodedLen [⟨OpInsert, after⟩] < encodedLen ds
  · rw [if_pos hn]
    have hnw : wfOps [(⟨OpInsert, after⟩ : diff)] := by
      intro d hd
      rcases List.mem_cons.mp hd with rfl | hd
      · exact Or.inr (Or.inl rfl)
      · cases hd
    have hnl : ∀ d ∈ [(⟨OpInsert, after⟩ : diff)], d.Text.length < 2 ^ 64 := by
      intro d hd
      rcases List.mem_cons.mp hd with rfl | hd
      · dsimp only
        omega
      · cases hd
    have hstep := applyLoop_encode [⟨OpInsert, after⟩] before
      (OpCRC :: crcSum (crc32 after)) [] hnw hnl
    simp only [srcConcat_cons, srcText_ins, srcConcat_nil, List.nil_append,
      dstConcat_cons, dstText_ins, dstConcat_nil, List.append_nil] at hstep
    rw [hstep, applyLoop_crc_trailer]
  · rw [if_neg hn]
    have hstep := applyLoop_encode ds [] (OpCRC :: crcSum (crc32 after)) [] hwf hlen
    rw [hsrc, hdst] at hstep
    simp only [List.append_nil, List.nil_append] at hstep
    rw [hstep, applyLoop_crc_trailer]

end VarintFormat

/-! The hex patch format of lightpatch.go: a version byte A, then records
written as lowercase hex length digits followed by the opcode byte (payload
bytes after an Insert opcode), and a final record of hex CRC digits followed
by the opcode K.  Its diff engine is the external rune-based diffmatchpatch
DiffMain applied to string(before) and string(after); that call is modelled
here by the diffMain of dmp.go in this repository, the byte-level port of
the same library (the external call runs with the library default timeout,
hence an armed deadline).  This model is not faithful on arbitrary bytes:
the real library converts the strings to rune slices, which replaces every
invalid UTF-8 byte with the three byte replacement character U+FFFD, so on
non-UTF-8 input the real diff describes the sanitised text rather than the
raw bytes and its Copy and Delete spans can exceed the raw source.  No
claim is settled on a property of MakePatch that depends on the engine
output beyond the unconditional trailer shape. -/
namespace HexFormat

/-- The option record filled by the FuncOption values; WithNoCRC sets
noCRC.  The binary and timeout fields of the source are never read by
MakePatch or ApplyPatch and are omitted. -/
structure config where
  noCRC : Bool := false
deriving Repr, DecidableEq

/-- Error kinds of the hex decoder. -/
inductive HErr where
  | eofStart
  | eofRead
  | unexpectedEOF
  | unknownVersion (b : Byte)
  | lenTooLong
  | missingLen
  | badLenByte (b : Byte)
  | crcMismatch
  | copyShort
deriving Repr, DecidableEq

/-- Lowercase hex digit of a value below 16. -/
def hexDigit (n : Nat) : Byte := if n < 10 then 48 + n else 87 + n

/-- Digits of n in base 16, most significant first, empty for zero. -/
def toHexAux (n : Nat) : List Byte :=
  if h : n = 0 then []
  else toHexAux (n / 16) ++ [hexDigit (n % 16)]
termination_by n
decreasing_by exact Nat.div_lt_self (by omega) (by omega)

/-- The Sprintf percent-x rendering of a number: minimal lowercase hex
digits, the single digit 0 for zero. -/
def toHex (n : Nat) : List Byte := if n = 0 then [48] else toHexAux n

/-- Numeric value of a hex digit byte. -/
def hexDigitVal (c : Byte) : Nat := if c ≤ 57 then c - 48 else c - 87

/-- Value of a string of hex digit bytes, most significant first. -/
def hexVal (s : List Byte) : Nat := s.foldl (fun a c => a * 16 + hexDigitVal c) 0

/-- The exact ceiling of log base 16, the model of the float expression
int(math.Ceil(math.Log(n)/math.Log(16))) in encodedLen of lightpatch.go.
For n = 0 the Go float value is minus infinity and the amd64 conversion
yields the minimal int64; for 2 ≤ n below 2^53 the float computation agrees
with the exact ceiling except possibly at exact powers of 16, where the
double rounding of the quotient may differ; no claim in this file is
settled at such a value. -/
def ceilLog16 (n : Nat) : Int :=
  if n = 0 then -(2 ^ 63)
  else if n = 1 then 0
  else ((toHex (n - 1)).length : Int)

/-- encodedLen from lightpatch.go: estimated hex digit count, one opcode
byte, and the payload for Insert records. -/
def encodedLen (diffs : List diff) : Int :=
  diffs.foldl (fun total d =>
    total + ceilLog16 d.Text.length + 1 +
      (if d.ty = OpInsert then (d.Text.length : Int) else 0)) 0

/-- The record stream of the hex encoder: hex length digits, then the
opcode byte, then the payload for Insert. -/
def encodeOps (diffs : List diff) : List Byte :=
  (diffs.map (fun d =>
    toHex d.Text.length ++ [d.ty] ++ (if d.ty = OpInsert then d.Text else []))).flatten

/-- MakePatch from lightpatch.go: run the engine, keep the naive
single-Insert script when the after bytes alone are shorter than the
estimated encoding, then emit the version byte, the records, and the hex
CRC digits followed by the opcode K (the CRC value is zero when the
WithNoCRC option was given).  The engine call of the source is the
external rune-based DiffMain; the byte-level diffMain stands in for it
here and agrees with it only up to the UTF-8 sanitisation described in the
section comment, so facts proved about this definition transfer to the
program only where they do not depend on the engine output. -/
def MakePatch (before after : List Byte) (cfg : config) (timed : Bool)
    (expired : Nat → Bool) : List Byte :=
  let diffs := diffMain before after timed expired
  let diffs := if (after.length : Int) < encodedLen diffs then [(⟨OpInsert, after⟩ : diff)] else diffs
  let crc := if cfg.noCRC then 0 else crc32 after
  VersionByte :: (encodeOps diffs ++ toHex crc ++ [OpCRC])

/-- Is the byte a lowercase hex digit (0 to 9 or a to f)? -/
def isHexDigit (c : Byte) : Prop := (48 ≤ c ∧ c ≤ 57) ∨ (97 ≤ c ∧ c ≤ 102)

instance (c : Byte) : Decidable (isHexDigit c) := by
  unfold isHexDigit; infer_instance

/-- readOp from lightpatch.go: accumulate up to nine hex digits, then an
opcode byte terminates the length field.  The accumulator s is the digit
list read so far. -/
def readOp (s : List Byte) : List Byte → Except HErr (Nat × Byte × List Byte)
  | [] => .error .eofRead
  | c :: rest =>
    if isHexDigit c then
      if s.length + 1 > 9 then .error .lenTooLong
      else readOp (s ++ [c]) rest
    else if c = OpCopy ∨ c = OpInsert ∨ c = OpDelete ∨ c = OpCRC then
      if s.length = 0 then .error .missingLen
      else .ok (hexVal s, c, rest)
    else .error (.badLenByte c)

theorem readOp_len :
    ∀ (l s : List Byte) (tl : Nat) (op : Byte) (r : List Byte),
      readOp s l = .ok (tl, op, r) → r.length < l.length := by
  intro l
  induction l with
  | nil => intro s tl op r h; simp [readOp] at h
  | cons c rest ih =>
    intro s tl op r h
    simp only [readOp] at h
    by_cases hd : isHexDigit c
    · simp only [hd, if_true] at h
      by_cases h9 : s.length + 1 > 9
      · simp [h9] at h
      · simp only [h9, if_false] at h
        have := ih _ _ _ _ h
        simp only [List.length_cons]
        omega
    · simp only [hd, if_false] at h
      by_cases hop : c = OpCopy ∨ c = OpInsert ∨ c = OpDelete ∨ c = OpCRC
      · simp only [hop, if_true] at h
        by_cases h0 : s.length = 0
        · simp [h0] at h
        · simp only [h0, if_false, Except.ok.injEq, Prod.mk.injEq] at h
          simp [← h.2.2]
      · simp [hop] at h

/-- The record loop of ApplyPatch in lightpatch.go.  The loop ends only at
a checksum record; end of patch input inside readOp is the unexpected EOF
error of the source. -/
def applyLoop (cfg : config) (beforeRem patch out : List Byte) :
    Except HErr (List Byte) :=
  match hr : readOp [] patch with
  | .error HErr.eofRead => .error .unexpectedEOF
  | .error e => .error e
  | .ok (tl, op, r1) =>
    if op = OpCopy then
      if tl ≤ beforeRem.length then
        applyLoop cfg (beforeRem.drop tl) r1 (out ++ beforeRem.take tl)
      else .error .copyShort
    else if op = OpInsert then
      if tl ≤ r1.length then
        applyLoop cfg beforeRem (r1.drop tl) (out ++ r1.take tl)
      else .error .copyShort
    else if op = OpDelete then
      if tl ≤ beforeRem.length then
        applyLoop cfg (beforeRem.drop tl) r1 out
      else .error .copyShort
    else
      -- op is the checksum opcode K: compare the accumulated CRC with the
      -- value of the length field truncated to 32 bits, then return;
      -- trailing patch bytes are not examined
      let crc := tl % 2 ^ 32
      if ¬ cfg.noCRC ∧ crc ≠ 0 ∧ crc32 out ≠ crc then .error .crcMismatch
      else .ok out
termination_by patch.length
decreasing_by
  all_goals have h1 := readOp_len patch [] tl op r1 hr
  any_goals simp only [List.length_drop]
  all_goals omega

/-- ApplyPatch from lightpatch.go: read and check the version byte, then
run the record loop. -/
def ApplyPatch (before patch : List Byte) (cfg : config) : Except HErr (List Byte) :=
  match patch with
  | [] => .error .eofStart
  | ver :: rest =>
    if ver ≠ VersionByte then .error (.unknownVersion ver)
    else applyLoop cfg before rest []

end HexFormat

theorem commonPrefixLength_nil_right (t : List Byte) : commonPrefixLength t [] = 0 := by
  cases t <;> rfl

theorem commonSuffixLength_nil_right (t : List Byte) : commonSuffixLength t [] = 0 := by
  rw [commonSuffixLength, List.reverse_nil, commonPrefixLength_nil_right]

theorem diffCompute_to_empty (fuel : Nat) (t1 : List Byte) (h : t1 ≠ [])
    (exp : Nat → Bool) (tm : Bool) (tk : Nat) :
    diffCompute fuel t1 [] exp tm tk = ([⟨OpDelete, t1⟩], tk) := by
  rw [diffCompute]
  rw [if_neg (by simpa using h)]
  rw [if_pos (show ([] : List Byte).length = 0 from rfl)]
  rfl

theorem diffMainBytes_to_empty (fuel : Nat) (t1 : List Byte) (h : t1 ≠ [])
    (exp : Nat → Bool) (tm : Bool) (tk : Nat) :
    diffMainBytes (fuel + 1) t1 [] exp tm tk = (diffCleanupMerge 3 [⟨OpDelete, t1⟩], tk) := by
  rw [diffMainBytes, if_neg h]
  simp only [commonPrefixLength_nil_right, List.take_zero, List.drop_zero,
    commonSuffixLength_nil_right, Nat.sub_zero, List.take_length, List.drop_length,
    List.length_nil, ne_eq, not_true_eq_false, if_false,
    diffCompute_to_empty fuel t1 h exp tm tk]
  norm_num

theorem diffCompute_from_empty (fuel : Nat) (t2 : List Byte)
    (exp : Nat → Bool) (tm : Bool) (tk : Nat) :
    diffCompute fuel [] t2 exp tm tk = ([⟨OpInsert, t2⟩], tk) := by
  rw [diffCompute, if_pos (show ([] : List Byte).length = 0 from rfl)]
  rfl

theorem commonPrefixLength_nil_left (t : List Byte) : commonPrefixLength [] t = 0 := by
  cases t <;> rfl

theorem commonSuffixLength_nil_left (t : List Byte) : commonSuffixLength [] t = 0 := by
  rw [commonSuffixLength, List.reverse_nil, commonPrefixLength_nil_left]

theorem diffMainBytes_from_empty (fuel : Nat) (t2 : List Byte) (h : t2 ≠ [])
    (exp : Nat → Bool) (tm : Bool) (tk : Nat) :
    diffMainBytes (fuel + 1) [] t2 exp tm tk = (diffCleanupMerge 3 [⟨OpInsert, t2⟩], tk) := by
  rw [diffMainBytes, if_neg (by exact fun hh => h hh.symm)]
  simp only [commonPrefixLength_nil_left, List.take_zero, List.drop_zero,
    commonSuffixLength_nil_left, Nat.sub_zero, List.take_length, List.drop_length,
    List.take_nil, List.drop_nil, List.length_nil, ne_eq, not_true_eq_false, if_false,
    diffCompute_from_empty fuel t2 exp tm tk]
  norm_num


theorem mem_text_le2 :
    ∀ (s : List diff), wfOps s → ∀ d ∈ s,
      d.Text.length ≤ (srcConcat s).length ∨ d.Text.length ≤ (dstConcat s).length := by
  intro s
  induction s with
  | nil => intro _ d hd; cases hd
  | cons a t ih =>
    intro hw d hd
    have hwt : wfOps t := fun e he => hw e (List.mem_cons_of_mem _ he)
    simp only [srcConcat_cons, dstConcat_cons, List.length_append]
    rcases List.mem_cons.mp hd with rfl | hdt
    · have ha := hw d (List.mem_cons_self d t)
      rcases d with ⟨ty, tx⟩
      rcases ha with h | h | h <;> (dsimp only at h ⊢; subst h)
      · left
        simp
      · right
        simp
      · left
        simp
    · rcases ih hwt d hdt with h | h
      · left
        omega
      · right
        omega

namespace HexFormat

theorem hexDigitVal_hexDigit (n : Nat) (h : n < 16) : hexDigitVal (hexDigit n) = n := by
  interval_cases n <;> decide

theorem isHexDigit_hexDigit (n : Nat) (h : n < 16) : isHexDigit (hexDigit n) := by
  interval_cases n <;> decide

theorem hexVal_concat (s : List Byte) (c : Byte) :
    hexVal (s ++ [c]) = hexVal s * 16 + hexDigitVal c := by
  rw [hexVal, hexVal, List.foldl_append]
  rfl

theorem hexVal_toHexAux : ∀ n : Nat, hexVal (toHexAux n) = n := by
  intro n
  induction n using Nat.strong_induction_on with
  | _ n ih =>
    rw [toHexAux]
    by_cases h : n = 0
    · rw [dif_pos h, h]
      rfl
    · rw [dif_neg h]
      rw [hexVal_concat, ih (n / 16) (Nat.div_lt_self (by omega) (by omega)),
        hexDigitVal_hexDigit (n % 16) (Nat.mod_lt _ (by omega))]
      omega

theorem hexVal_toHex (n : Nat) : hexVal (toHex n) = n := by
  rw [toHex]
  by_cases h : n = 0
  · rw [if_pos h, h]
    rfl
  · rw [if_neg h, hexVal_toHexAux]

theorem toHexAux_mem_hex : ∀ n : Nat, ∀ c ∈ toHexAux n, isHexDigit c := by
  intro n
  induction n using Nat.strong_induction_on with
  | _ n ih =>
    intro c hc
    rw [toHexAux] at hc
    by_cases h : n = 0
    · rw [dif_pos h] at hc
      cases hc
    · rw [dif_neg h] at hc
      rcases List.mem_append.mp hc with h1 | h1
      · exact ih (n / 16) (Nat.div_lt_self (by omega) (by omega)) c h1
      · have hc2 := List.mem_singleton.mp h1
        subst hc2
        exact isHexDigit_hexDigit _ (Nat.mod_lt _ (by omega))

theorem toHex_mem_hex (n : Nat) : ∀ c ∈ toHex n, isHexDigit c := by
  intro c hc
  rw [toHex] at hc
  by_cases h : n = 0
  · rw [if_pos h] at hc
    have hc2 := List.mem_singleton.mp hc
    subst hc2
    decide
  · rw [if_neg h] at hc
    exact toHexAux_mem_hex n c hc

theorem toHexAux_length_le : ∀ k n : Nat, n < 16 ^ k → (toHexAux n).length ≤ k := by
  intro k
  induction k with
  | zero =>
    intro n h
    have h0 : n = 0 := by simpa using h
    subst h0
    rw [toHexAux, dif_pos rfl]
    simp
  | succ k ih =>
    intro n h
    rw [toHexAux]
    by_cases h0 : n = 0
    · rw [dif_pos h0]
      simp
    · rw [dif_neg h0]
      simp only [List.length_append, List.length_cons, List.length_nil]
      have hdiv : n / 16 < 16 ^ k := by
        rw [pow_succ] at h
        omega
      have := ih (n / 16) hdiv
      omega

theorem toHex_length_le (n : Nat) (h : n < 16 ^ 9) :
    1 ≤ (toHex n).length ∧ (toHex n).length ≤ 9 := by
  rw [toHex]
  by_cases h0 : n = 0
  · rw [if_pos h0]
    simp
  · rw [if_neg h0]
    refine ⟨?_, toHexAux_length_le 9 n h⟩
    rw [toHexAux, dif_neg h0]
    simp

theorem readOp_parse :
    ∀ (ds s : List Byte), (∀ c ∈ ds, isHexDigit c) → s.length + ds.length ≤ 9 →
      1 ≤ s.length + ds.length →
      ∀ (op : Byte), (op = OpCopy ∨ op = OpInsert ∨ op = OpDelete ∨ op = OpCRC) →
      ∀ (rest : List Byte),
      readOp s (ds ++ op :: rest) = .ok (hexVal (s ++ ds), op, rest) := by
  intro ds
  induction ds with
  | nil =>
    intro s _ h9 h1 op hop rest
    rw [List.nil_append, readOp]
    have hnd : ¬ isHexDigit op := by
      rcases hop with rfl | rfl | rfl | rfl <;> decide
    rw [if_neg hnd, if_pos hop,
      if_neg (by simp only [List.length_nil] at h1; omega : ¬ s.length = 0)]
    rw [List.append_nil]
  | cons c ds' ih =>
    intro s hhex h9 h1 op hop rest
    rw [List.cons_append, readOp]
    rw [if_pos (hhex c (List.mem_cons_self c ds'))]
    rw [if_neg (by simp only [List.length_cons] at h9; omega : ¬ s.length + 1 > 9)]
    have hrec := ih (s ++ [c]) (fun d hd => hhex d (List.mem_cons_of_mem _ hd))
      (by
        simp only [List.length_append, List.length_cons, List.length_nil]
        simp only [List.length_cons] at h9
        omega)
      (by simp only [List.length_append, List.length_cons, List.length_nil]; omega)
      op hop rest
    rw [hrec, List.append_assoc]
    rfl

theorem readOp_toHex (n : Nat) (hn : n < 16 ^ 9) (op : Byte)
    (hop : op = OpCopy ∨ op = OpInsert ∨ op = OpDelete ∨ op = OpCRC) (rest : List Byte) :
    readOp [] (toHex n ++ op :: rest) = .ok (n, op, rest) := by
  obtain ⟨hl1, hl9⟩ := toHex_length_le n hn
  have hp := readOp_parse (toHex n) [] (toHex_mem_hex n)
    (by simpa using hl9) (by simpa using hl1) op hop rest
  rw [hp, List.nil_append, hexVal_toHex]

theorem applyLoop_readop_ok (cfg : config) (b patch out r1 : List Byte) (tl : Nat) (op : Byte)
    (hv : readOp [] patch = .ok (tl, op, r1)) :
    applyLoop cfg b patch out =
      if op = OpCopy then
        (if tl ≤ b.length then applyLoop cfg (b.drop tl) r1 (out ++ b.take tl)
          else .error .copyShort)
      else if op = OpInsert then
        (if tl ≤ r1.length then applyLoop cfg b (r1.drop tl) (out ++ r1.take tl)
          else .error .copyShort)
      else if op = OpDelete then
        (if tl ≤ b.length then applyLoop cfg (b.drop tl) r1 out
          else .error .copyShort)
      else
        (if ¬ cfg.noCRC ∧ tl % 2 ^ 32 ≠ 0 ∧ crc32 out ≠ tl % 2 ^ 32 then .error .crcMismatch
          else .ok out) := by
  rw [applyLoop]
  split <;> rename_i heq <;> rw [hv] at heq <;> cases heq <;> rfl

theorem applyLoop_readop_err_eof (cfg : config) (b patch out : List Byte)
    (hv : readOp [] patch = .error .eofRead) :
    applyLoop cfg b patch out = .error .unexpectedEOF := by
  rw [applyLoop]
  split <;> rename_i heq <;> rw [hv] at heq <;> cases heq
  all_goals first
    | rfl
    | (rename_i hcon; exact absurd rfl hcon)

theorem applyLoop_readop_err_other (cfg : config) (b patch out : List Byte) (e : HErr)
    (hv : readOp [] patch = .error e) (hne : e ≠ .eofRead) :
    applyLoop cfg b patch out = .error e := by
  rw [applyLoop]
  split <;> rename_i heq <;> rw [hv] at heq <;> cases heq
  all_goals first
    | rfl
    | (exact absurd rfl hne)
    | (rename_i hcon; exact absurd rfl hcon)


theorem applyLoop_encode_hex :
    ∀ (s : List diff) (cfg : config) (extra rest out : List Byte),
      wfOps s → (∀ d ∈ s, d.Text.length < 16 ^ 9) →
      applyLoop cfg (srcConcat s ++ extra) (encodeOps s ++ rest) out
        = applyLoop cfg extra rest (out ++ dstConcat s) := by
  intro s
  induction s with
  | nil =>
    intro cfg extra rest out _ _
    simp [encodeOps]
  | cons d t ih =>
    intro cfg extra rest out hw hlen
    have hdl := hlen d (List.mem_cons_self d t)
    have hwt : wfOps t := fun e he => hw e (List.mem_cons_of_mem _ he)
    have hlt : ∀ e ∈ t, e.Text.length < 16 ^ 9 :=
      fun e he => hlen e (List.mem_cons_of_mem _ he)
    have henc : encodeOps (d :: t)
        = (toHex d.Text.length ++ [d.ty] ++ (if d.ty = OpInsert then d.Text else []))
          ++ encodeOps t := by
      simp [encodeOps]
    rw [henc]
    have hd := hw d (List.mem_cons_self d t)
    rcases d with ⟨ty, tx⟩
    rcases hd with h | h | h <;> (dsimp only at h hdl ⊢; subst h)
    · -- a Copy record
      rw [if_neg op_ne_ci]
      simp only [srcConcat_cons, srcText_copy, dstConcat_cons, dstText_copy,
        List.append_nil, List.append_assoc, List.cons_append, List.singleton_append,
        List.nil_append]
      rw [applyLoop_readop_ok cfg _ _ out (encodeOps t ++ rest) tx.length OpCopy
        (readOp_toHex tx.length hdl OpCopy (Or.inl rfl) _)]
      rw [if_pos rfl]
      rw [if_pos (show tx.length ≤ (tx ++ (srcConcat t ++ extra)).length by
        simp only [List.length_append]; omega)]
      rw [List.take_left, List.drop_left]
      rw [ih cfg extra rest (out ++ tx) hwt hlt]
      rw [List.append_assoc]
    · -- an Insert record
      rw [if_pos rfl]
      simp only [srcConcat_cons, srcText_ins, dstConcat_cons, dstText_ins,
        List.append_assoc, List.cons_append, List.singleton_append, List.nil_append]
      rw [applyLoop_readop_ok cfg _ _ out (tx ++ (encodeOps t ++ rest)) tx.length OpInsert
        (readOp_toHex tx.length hdl OpInsert (Or.inr (Or.inl rfl)) _)]
      rw [if_neg (show ¬ OpInsert = OpCopy by decide), if_pos rfl]
      rw [if_pos (show tx.length ≤ (tx ++ (encodeOps t ++ rest)).length by
        simp only [List.length_append]; omega)]
      rw [List.take_left, List.drop_left]
      rw [ih cfg extra rest (out ++ tx) hwt hlt]
      rw [List.append_assoc]
    · -- a Delete record
      rw [if_neg (show ¬ OpDelete = OpInsert by decide)]
      simp only [srcConcat_cons, srcText_del, dstConcat_cons, dstText_del,
        List.append_nil, List.append_assoc, List.cons_append, List.singleton_append,
        List.nil_append]
      rw [applyLoop_readop_ok cfg _ _ out (encodeOps t ++ rest) tx.length OpDelete
        (readOp_toHex tx.length hdl OpDelete (Or.inr (Or.inr (Or.inl rfl))) _)]
      rw [if_neg (show ¬ OpDelete = OpCopy by decide)]
      rw [if_neg (show ¬ OpDelete = OpInsert by decide)]
      rw [if_pos rfl]
      rw [if_pos (show tx.length ≤ (tx ++ (srcConcat t ++ extra)).length by
        simp only [List.length_append]; omega)]
      rw [List.drop_left]
      rw [ih cfg extra rest out hwt hlt]

theorem crc32Round_lt (c : Nat) (h : c < 2 ^ 32) : crc32Round c < 2 ^ 32 := by
  rw [crc32Round]
  have hs : c >>> 1 < 2 ^ 32 := by
    rw [Nat.shiftRight_eq_div_pow]
    omega
  by_cases hb : c &&& 1 = 1
  · rw [if_pos hb]
    exact Nat.xor_lt_two_pow hs (by norm_num)
  · rw [if_neg hb]
    exact hs

theorem crc32_lt (l : List Byte) : crc32 l < 2 ^ 32 := by
  have hiter : ∀ (k : Nat) (c : Nat), c < 2 ^ 32 → crc32Round^[k] c < 2 ^ 32 := by
    intro k
    induction k with
    | zero => intro c hc; simpa using hc
    | succ k ih =>
      intro c hc
      rw [Function.iterate_succ_apply]
      exact ih _ (crc32Round_lt c hc)
  have hbyte : ∀ (c : Nat) (b : Byte), c < 2 ^ 32 → crc32Byte c b < 2 ^ 32 := by
    intro c b hc
    rw [crc32Byte]
    refine hiter 8 _ (Nat.xor_lt_two_pow hc ?_)
    exact lt_of_le_of_lt Nat.and_le_right (by norm_num)
  have hfold : ∀ (l : List Byte) (c : Nat), c < 2 ^ 32 →
      l.foldl crc32Byte c < 2 ^ 32 := by
    intro l
    induction l with
    | nil => intro c hc; simpa using hc
    | cons b t ih =>
      intro c hc
      rw [List.foldl_cons]
      exact ih _ (hbyte c b hc)
  rw [crc32]
  exact Nat.xor_lt_two_pow (hfold l _ (by norm_num)) (by norm_num)

theorem applyLoop_hex_trailer (cfg : config) (b out : List Byte) (c : Nat)
    (hc : c < 2 ^ 32) (hok : c = 0 ∨ c = crc32 out) :
    applyLoop cfg b (toHex c ++ [OpCRC]) out = .ok out := by
  have h9 : c < 16 ^ 9 := by
    have : (2 : Nat) ^ 32 < 16 ^ 9 := by norm_num
    omega
  rw [show (toHex c ++ [OpCRC] : List Byte) = toHex c ++ OpCRC :: [] from rfl]
  rw [applyLoop_readop_ok cfg b _ out [] c OpCRC
    (readOp_toHex c h9 OpCRC (Or.inr (Or.inr (Or.inr rfl))) [])]
  rw [if_neg (by decide), if_neg (by decide), if_neg (by decide)]
  have hmod : c % 2 ^ 32 = c := Nat.mod_eq_of_lt hc
  rw [hmod]
  rcases hok with rfl | heq
  · rw [if_neg (by rintro ⟨h1, h2, h3⟩; exact h2 rfl)]
  · rw [if_neg (by rintro ⟨h1, h2, h3⟩; exact h3 heq.symm)]

theorem applyLoop_skeleton :
    ∀ (s : List diff) (cfg : config) (b rest out : List Byte),
      wfOps s → (∀ d ∈ s, d.Text.length < 16 ^ 9) →
      (srcConcat s).length ≤ b.length →
      ∃ out', applyLoop cfg b (encodeOps s ++ rest) out
          = applyLoop cfg (b.drop (srcConcat s).length) rest out' := by
  intro s
  induction s with
  | nil =>
    intro cfg b rest out _ _ _
    exact ⟨out, by simp [encodeOps]⟩
  | cons d t ih =>
    intro cfg b rest out hw hlen hsl
    have hdl := hlen d (List.mem_cons_self d t)
    have hwt : wfOps t := fun e he => hw e (List.mem_cons_of_mem _ he)
    have hlt : ∀ e ∈ t, e.Text.length < 16 ^ 9 :=
      fun e he => hlen e (List.mem_cons_of_mem _ he)
    have henc : encodeOps (d :: t)
        = (toHex d.Text.length ++ [d.ty] ++ (if d.ty = OpInsert then d.Text else []))
          ++ encodeOps t := by
      simp [encodeOps]
    rw [henc]
    have hd := hw d (List.mem_cons_self d t)
    rcases d with ⟨ty, tx⟩
    rcases hd with h | h | h <;> (dsimp only at h hdl ⊢; subst h)
    · -- a Copy record reads its span from the source
      rw [if_neg op_ne_ci]
      simp only [srcConcat_cons, srcText_copy, List.length_append] at hsl
      simp only [srcConcat_cons, srcText_copy, List.length_append, List.append_nil,
        List.append_assoc, List.cons_append, List.singleton_append, List.nil_append]
      rw [applyLoop_readop_ok cfg _ _ out (encodeOps t ++ rest) tx.length OpCopy
        (readOp_toHex tx.length hdl OpCopy (Or.inl rfl) _)]
      rw [if_pos rfl]
      rw [if_pos (show tx.length ≤ b.length by omega)]
      obtain ⟨out', hout⟩ := ih cfg (b.drop tx.length) rest (out ++ b.take tx.length)
        hwt hlt (by simp only [List.length_drop]; omega)
      refine ⟨out', ?_⟩
      rw [hout, List.drop_drop]
    · -- an Insert record reads its span from the patch
      rw [if_pos rfl]
      simp only [srcConcat_cons, srcText_ins, List.nil_append] at hsl
      simp only [srcConcat_cons, srcText_ins, List.append_assoc, List.cons_append,
        List.singleton_append, List.nil_append]
      rw [applyLoop_readop_ok cfg _ _ out (tx ++ (encodeOps t ++ rest)) tx.length OpInsert
        (readOp_toHex tx.length hdl OpInsert (Or.inr (Or.inl rfl)) _)]
      rw [if_neg (show ¬ OpInsert = OpCopy by decide), if_pos rfl]
      rw [if_pos (show tx.length ≤ (tx ++ (encodeOps t ++ rest)).length by
        simp only [List.length_append]; omega)]
      rw [List.take_left, List.drop_left]
      exact ih cfg b rest (out ++ tx) hwt hlt hsl
    · -- a Delete record reads its span from the source
      rw [if_neg (show ¬ OpDelete = OpInsert by decide)]
      simp only [srcConcat_cons, srcText_del, List.length_append] at hsl
      simp only [srcConcat_cons, srcText_del, List.length_append, List.append_nil,
        List.append_assoc, List.cons_append, List.singleton_append, List.nil_append]
      rw [applyLoop_readop_ok cfg _ _ out (encodeOps t ++ rest) tx.length OpDelete
        (readOp_toHex tx.length hdl OpDelete (Or.inr (Or.inr (Or.inl rfl))) _)]
      rw [if_neg (show ¬ OpDelete = OpCopy by decide)]
      rw [if_neg (show ¬ OpDelete = OpInsert by decide)]
      rw [if_pos rfl]
      rw [if_pos (show tx.length ≤ b.length by omega)]
      obtain ⟨out', hout⟩ := ih cfg (b.drop tx.length) rest out
        hwt hlt (by simp only [List.length_drop]; omega)
      refine ⟨out', ?_⟩
      rw [hout, List.drop_drop]

theorem readOp_err_ne (l : List Byte) :
    ∀ (s : List Byte) (e : HErr), readOp s l = .error e → e ≠ .crcMismatch := by
  induction l with
  | nil =>
    intro s e h
    rw [readOp] at h
    cases h
    decide
  | cons c rest ih =>
    intro s e h
    rw [readOp] at h
    by_cases hd : isHexDigit c
    · rw [if_pos hd] at h
      by_cases h9 : s.length + 1 > 9
      · rw [if_pos h9] at h
        cases h
        decide
      · rw [if_neg h9] at h
        exact ih _ _ h
    · rw [if_neg hd] at h
      by_cases hop : c = OpCopy ∨ c = OpInsert ∨ c = OpDelete ∨ c = OpCRC
      · rw [if_pos hop] at h
        by_cases h0 : s.length = 0
        · rw [if_pos h0] at h
          cases h
          decide
        · rw [if_neg h0] at h
          cases h
      · rw [if_neg hop] at h
        cases h
        intro hx
        cases hx

theorem applyLoop_noCRC_ok :
    ∀ (n : Nat) (cfg : config) (b p out : List Byte), cfg.noCRC = true → p.length ≤ n →
      applyLoop cfg b p out ≠ .error .crcMismatch := by
  intro n
  induction n with
  | zero =>
    intro cfg b p out hnc hlen
    have hp : p = [] := List.length_eq_zero.mp (by omega)
    subst hp
    rw [applyLoop_readop_err_eof cfg b [] out (by rw [readOp])]
    decide
  | succ n ih =>
    intro cfg b p out hnc hlen
    cases hv : readOp [] p with
    | error e =>
      by_cases he : e = HErr.eofRead
      · subst he
        rw [applyLoop_readop_err_eof cfg b p out hv]
        decide
      · rw [applyLoop_readop_err_other cfg b p out e hv he]
        have hne := readOp_err_ne p [] e hv
        intro hcc
        cases hcc
        exact hne rfl
    | ok v =>
      obtain ⟨tl, op, r1⟩ := v
      have hr1 : r1.length < p.length := readOp_len p [] tl op r1 hv
      rw [applyLoop_readop_ok cfg b p out r1 tl op hv]
      by_cases h1 : op = OpCopy
      · rw [if_pos h1]
        by_cases h2 : tl ≤ b.length
        · rw [if_pos h2]
          exact ih cfg _ _ _ hnc (by omega)
        · rw [if_neg h2]
          decide
      · rw [if_neg h1]
        by_cases h3 : op = OpInsert
        · rw [if_pos h3]
          by_cases h4 : tl ≤ r1.length
          · rw [if_pos h4]
            exact ih cfg _ _ _ hnc (by simp only [List.length_drop]; omega)
          · rw [if_neg h4]
            decide
        · rw [if_neg h3]
          by_cases h5 : op = OpDelete
          · rw [if_pos h5]
            by_cases h6 : tl ≤ b.length
            · rw [if_pos h6]
              exact ih cfg _ _ _ hnc (by omega)
            · rw [if_neg h6]
              decide
          · rw [if_neg h5]
            rw [if_neg (by simp [hnc])]
            intro hcc
            cases hcc

theorem hex_apply_version (cfg : config) (before : List Byte) (p : List Byte) :
    ApplyPatch before (VersionByte :: p) cfg = applyLoop cfg before p [] := by
  rw [ApplyPatch]
  rw [if_neg (by simp)]

end HexFormat


/-! Grammar checkers for the patch wire format. -/

/-- The record grammar asserted by the specification text: a stream of
Copy, Insert and Delete records, each an opcode byte followed by a varint
length and, for Insert, the payload bytes. -/
def claimedRecords (p : List Byte) : Bool :=
  match p with
  | [] => true
  | op :: rest =>
    if op = OpCopy ∨ op = OpInsert ∨ op = OpDelete then
      match hv : VarintFormat.readUvarint rest with
      | .error _ => false
      | .ok (tl, r1) =>
        if op = OpInsert then
          (if tl ≤ r1.length then claimedRecords (r1.drop tl) else false)
        else claimedRecords r1
    else false
termination_by p.length
decreasing_by
  all_goals have h1 := VarintFormat.readUvarint_len hv
  any_goals simp only [List.length_drop]
  all_goals simp only [List.length_cons]
  all_goals omega

/-- The full patch grammar asserted by the claim: one version byte, then
Copy, Insert and Delete records in the varint encoding. -/
def claimedPatchGrammar (p : List Byte) : Bool :=
  match p with
  | [] => false
  | v :: rest => decide (v = VersionByte) && claimedRecords rest

/-- The actual varint wire grammar of the package variant: records as in
the claim but with no version byte, terminated by a checksum record of the
opcode K followed by exactly four CRC bytes. -/
def varintRecords (p : List Byte) : Bool :=
  match p with
  | [] => false
  | op :: rest =>
    if op = OpCRC then decide (rest.length = 4)
    else if op = OpCopy ∨ op = OpInsert ∨ op = OpDelete then
      match hv : VarintFormat.readUvarint rest with
      | .error _ => false
      | .ok (tl, r1) =>
        if op = OpInsert then
          (if tl ≤ r1.length then varintRecords (r1.drop tl) else false)
        else varintRecords r1
    else false
termination_by p.length
decreasing_by
  all_goals have h1 := VarintFormat.readUvarint_len hv
  any_goals simp only [List.length_drop]
  all_goals simp only [List.length_cons]
  all_goals omega

theorem varintRecords_crc (rest : List Byte) :
    varintRecords (OpCRC :: rest) = decide (rest.length = 4) := by
  rw [varintRecords, if_pos rfl]

theorem varintRecords_op (op : Byte) (rest r1 : List Byte) (tl : Nat)
    (hop1 : ¬ op = OpCRC) (hop2 : op = OpCopy ∨ op = OpInsert ∨ op = OpDelete)
    (hv : VarintFormat.readUvarint rest = .ok (tl, r1)) :
    varintRecords (op :: rest)
      = (if op = OpInsert then
          (if tl ≤ r1.length then varintRecords (r1.drop tl) else false)
        else varintRecords r1) := by
  rw [varintRecords, if_neg hop1, if_pos hop2]
  split <;> rename_i heq <;> rw [hv] at heq <;> cases heq
  all_goals rfl

theorem varintRecords_encode :
    ∀ (s : List diff) (rest : List Byte), wfOps s → (∀ d ∈ s, d.Text.length < 2 ^ 64) →
      varintRecords (VarintFormat.encodeOps s ++ rest) = varintRecords rest := by
  intro s
  induction s with
  | nil =>
    intro rest _ _
    simp [VarintFormat.encodeOps]
  | cons d t ih =>
    intro rest hw hlen
    have hdl := hlen d (List.mem_cons_self d t)
    have hwt : wfOps t := fun e he => hw e (List.mem_cons_of_mem _ he)
    have hlt : ∀ e ∈ t, e.Text.length < 2 ^ 64 :=
      fun e he => hlen e (List.mem_cons_of_mem _ he)
    have henc : VarintFormat.encodeOps (d :: t)
        = d.ty :: ((VarintFormat.putUvarint d.Text.length ++
            (if d.ty = OpInsert then d.Text else [])) ++ VarintFormat.encodeOps t) := by
      simp [VarintFormat.encodeOps]
    rw [henc]
    have hd := hw d (List.mem_cons_self d t)
    rcases d with ⟨ty, tx⟩
    rcases hd with h | h | h <;> (dsimp only at h hdl ⊢; subst h)
    · rw [if_neg op_ne_ci]
      simp only [List.cons_append, List.append_nil, List.append_assoc]
      rw [varintRecords_op OpCopy _ _ tx.length (by decide) (Or.inl rfl)
        (VarintFormat.readUvarint_put tx.length _ hdl)]
      rw [if_neg (show ¬ OpCopy = OpInsert by decide)]
      exact ih rest hwt hlt
    · rw [if_pos rfl]
      simp only [List.cons_append, List.append_assoc]
      rw [varintRecords_op OpInsert _ _ tx.length (by decide) (Or.inr (Or.inl rfl))
        (VarintFormat.readUvarint_put tx.length _ hdl)]
      rw [if_pos rfl]
      rw [if_pos (show tx.length ≤ (tx ++ (VarintFormat.encodeOps t ++ rest)).length by
        simp only [List.length_append]; omega)]
      rw [List.drop_left]
      exact ih rest hwt hlt
    · rw [if_neg (show ¬ OpDelete = OpInsert by decide)]
      simp only [List.cons_append, List.append_nil, List.append_assoc]
      rw [varintRecords_op OpDelete _ _ tx.length (by decide) (Or.inr (Or.inr rfl))
        (VarintFormat.readUvarint_put tx.length _ hdl)]
      rw [if_neg (show ¬ OpDelete = OpInsert by decide)]
      exact ih rest hwt hlt


/-! Concrete evaluations of the engine at the inputs of the counterexamples. -/

theorem diffMain_empty_empty (exp : Nat → Bool) :
    diffMain [] [] true exp = [] := by
  rw [diffMain]
  rw [show ([] : List Byte).length + ([] : List Byte).length + 1 = 0 + 1 from rfl]
  rw [diffMainBytes, if_pos rfl]
  rw [if_neg (by decide : ¬ 0 < ([] : List Byte).length)]

theorem diffMain_del_48 (exp : Nat → Bool) :
    diffMain [48] [] true exp = [⟨OpDelete, [48]⟩] := by
  rw [diffMain]
  rw [show ([48] : List Byte).length + ([] : List Byte).length + 1 = 1 + 1 from rfl]
  rw [diffMainBytes_to_empty 1 [48] (by decide) exp true 0]
  decide

theorem diffMain_aa_aaaa (exp : Nat → Bool) :
    diffMain [97, 97] [97, 97, 97, 97] true exp
      = [⟨OpCopy, [97, 97]⟩, ⟨OpInsert, [97, 97]⟩] := by
  have e1 : commonPrefixLength [97, 97] [97, 97, 97, 97] = 2 := by decide
  have e2 : List.take 2 [97, 97] = ([97, 97] : List Byte) := by decide
  have e3 : List.drop 2 [97, 97] = ([] : List Byte) := by decide
  have e4 : List.drop 2 [97, 97, 97, 97] = ([97, 97] : List Byte) := by decide
  have e5 : commonSuffixLength ([] : List Byte) [97, 97] = 0 := by decide
  have e6 : ([97, 97] : List Byte).length = 2 := by decide
  have e7 : diffCompute 6 [] [97, 97] exp true 0 = ([⟨OpInsert, [97, 97]⟩], 0) :=
    diffCompute_from_empty 6 [97, 97] exp true 0
  have h2 : diffMainBytes 7 [97, 97] [97, 97, 97, 97] exp true 0
      = (diffCleanupMerge 4 [⟨OpCopy, [97, 97]⟩, ⟨OpInsert, [97, 97]⟩], 0) := by
    rw [diffMainBytes, if_neg (by decide)]
    rw [e1]
    simp only [e2, e3, e4, e5, e6, e7, List.length_nil, Nat.sub_zero, List.take_nil,
      List.drop_nil, List.take_zero, ne_eq, not_true_eq_false, if_false,
      not_false_eq_true, if_true, OfNat.ofNat_ne_zero, List.length_cons]
    norm_num
  rw [diffMain]
  rw [show ([97, 97] : List Byte).length + ([97, 97, 97, 97] : List Byte).length + 1 = 7
    from rfl]
  rw [h2]
  decide



/-! Claim theorems about the diff engine. -/

/-- C2: for every pair of byte sequences before and after, the edit script
returned by the diff engine is a valid transformation: the concatenation of
the spans of its Copy and Delete operations, in order, exactly consumes
before, the concatenation of the spans of its Copy and Insert operations,
in order, exactly reconstructs after, and every record carries one of the
three edit opcodes.  This holds for every deadline configuration. -/
theorem C2_engine_script_valid (before after : List Byte) (timed : Bool)
    (expired : Nat → Bool) :
    srcConcat (diffMain before after timed expired) = before ∧
    dstConcat (diffMain before after timed expired) = after ∧
    wfOps (diffMain before after timed expired) :=
  good_diffMainBytes (before.length + after.length + 1) before after expired timed 0

/-- C8: diffBisect always returns either a recursively constructed diff
through diffBisectSplit at a detected overlap, or the trivial two-operation
script Delete text1, Insert text2; under an expired deadline the result is
always the trivial script; and the outer loop bound maxD of the source,
here the fuel of bisectLoop, is at most the ceiling of
(length1 + length2 + 1) / 2. -/
theorem C8_bisect_terminates (fuel : Nat) (r1 r2 : List Byte)
    (expired : Nat → Bool) (timed : Bool) (tick : Nat) :
    ((∃ x y tick', diffBisect fuel r1 r2 expired timed tick
        = diffBisectSplit fuel r1 r2 x y expired timed tick') ∨
      (∃ tick', diffBisect fuel r1 r2 expired timed tick
        = ([⟨OpDelete, clone r1⟩, ⟨OpInsert, clone r2⟩], tick'))) ∧
    (diffBisect fuel r1 r2 (fun _ => true) true tick).1
        = [⟨OpDelete, clone r1⟩, ⟨OpInsert, clone r2⟩] ∧
    (r1.length + r2.length + 1) / 2 ≤ (r1.length + r2.length + 2) / 2 := by
  have hloop : ∀ (n vOff : Nat) (delta : Int) (front : Bool) (st : BisectState),
      bisectLoop r1 r2 (fun _ => true) true vOff delta front n 0 st tick
        = (none, if n = 0 then tick else tick + 1) := by
    intro n vOff delta front st
    cases n with
    | zero => rfl
    | succ m =>
      rw [bisectLoop]
      simp
  refine ⟨?_, ?_, by omega⟩
  · rw [diffBisect]
    split
    · next xy tick' _ => exact Or.inl ⟨xy.1, xy.2, tick', rfl⟩
    · next tick' _ => exact Or.inr ⟨tick', rfl⟩
  · rw [diffBisect]
    rw [hloop]

/-- C9: diffHalfMatch returns no match when time is unlimited, when the
longer input is under 4 bytes, or when doubling the shorter input stays
below the longer input's length; and every half-match it returns splits
both inputs around a common middle whose doubled length is at least the
longer input's length. -/
theorem C9_halfmatch_conditions (t1 t2 : List Byte) (u : Bool) :
    (u = true → diffHalfMatch t1 t2 u = none) ∧
    ((if t1.length > t2.length then t1 else t2).length < 4 →
      diffHalfMatch t1 t2 u = none) ∧
    ((if t1.length > t2.length then t2 else t1).length * 2
        < (if t1.length > t2.length then t1 else t2).length →
      diffHalfMatch t1 t2 u = none) ∧
    (∀ hm, diffHalfMatch t1 t2 u = some hm →
      t1 = hm.t1A ++ hm.mid ++ hm.t1B ∧ t2 = hm.t2A ++ hm.mid ++ hm.t2B ∧
      max t1.length t2.length ≤ 2 * hm.mid.length) := by
  refine ⟨?_, ?_, ?_, fun hm h => diffHalfMatch_spec t1 t2 u hm h⟩
  · intro h
    rw [diffHalfMatch, if_pos h]
  · intro h
    rw [diffHalfMatch]
    by_cases hu : u = true
    · rw [if_pos hu]
    · rw [if_neg hu]
      dsimp only
      rw [if_pos (Or.inl h)]
  · intro h
    rw [diffHalfMatch]
    by_cases hu : u = true
    · rw [if_pos hu]
    · rw [if_neg hu]
      dsimp only
      rw [if_pos (Or.inr h)]

/-- Witness for C9: with unlimited time the heuristic is skipped, and a two
byte longer side is rejected as under four bytes. -/
theorem C9_halfmatch_conditions_witness :
    diffHalfMatch [97] [98] true = none ∧ diffHalfMatch [97, 97] [98] false = none :=
  ⟨(C9_halfmatch_conditions [97] [98] true).1 rfl,
    (C9_halfmatch_conditions [97, 97] [98] false).2.1 (by decide)⟩



/-! Claim theorems about the two patch codecs. -/

/-- C3 counterexample: the varint encoder emits no version byte at all; the
patch for an empty before and after is the bare checksum record, whose first
byte is the opcode K, so the grammar asserted by the claim (one version byte
followed by Copy, Insert or Delete records) rejects a produced patch. -/
theorem C3_counterexample :
    VarintFormat.MakePatchTimeout [] [] true (fun _ => false) = [OpCRC, 0, 0, 0, 0] ∧
    claimedPatchGrammar (VarintFormat.MakePatchTimeout [] [] true (fun _ => false))
      = false := by
  have hd0 := diffMain_empty_empty (fun _ => false)
  have hu : VarintFormat.uvarintLen 0 = 1 := by rw [VarintFormat.uvarintLen]; rfl
  have hcond : ¬ (VarintFormat.encodedLen [(⟨OpInsert, []⟩ : diff)]
      < VarintFormat.encodedLen ([] : List diff)) := by
    have he1 : VarintFormat.encodedLen [(⟨OpInsert, []⟩ : diff)] = 2 := by
      simp [VarintFormat.encodedLen, hu]
    have he2 : VarintFormat.encodedLen ([] : List diff) = 0 := by
      simp [VarintFormat.encodedLen]
    omega
  have hmp : VarintFormat.MakePatchTimeout [] [] true (fun _ => false)
      = [OpCRC, 0, 0, 0, 0] := by
    rw [VarintFormat.MakePatchTimeout, hd0, if_neg hcond]
    decide
  exact ⟨hmp, by rw [hmp]; decide⟩

/-- C3 amended: every patch the varint encoder produces is a stream of
Copy, Insert and Delete records, each an opcode byte followed by a varint
length and, for Insert only, the payload bytes, terminated by a checksum
record of the opcode K and four CRC bytes, with no version byte. -/
theorem C3_varint_record_stream (before after : List Byte) (timed : Bool)
    (exp : Nat → Bool) (h1 : before.length < 2 ^ 63) (h2 : after.length < 2 ^ 63) :
    varintRecords (VarintFormat.MakePatchTimeout before after timed exp) = true := by
  rw [VarintFormat.MakePatchTimeout]
  obtain ⟨hsrc, hdst, hwf⟩ : Good before after (diffMain before after timed exp) :=
    good_diffMainBytes (before.length + after.length + 1) before after exp timed 0
  set ds := diffMain before after timed exp with hds
  have hp : (2 : Nat) ^ 63 + 2 ^ 63 = 2 ^ 64 := by norm_num
  have hlen : ∀ d ∈ ds, d.Text.length < 2 ^ 64 := by
    intro d hd
    have hle := VarintFormat.mem_text_le ds hwf d hd
    rw [hsrc, hdst] at hle
    omega
  by_cases hn : VarintFormat.encodedLen [⟨OpInsert, after⟩] < VarintFormat.encodedLen ds
  · rw [if_pos hn]
    have hnw : wfOps [(⟨OpInsert, after⟩ : diff)] := by
      intro d hd
      rcases List.mem_cons.mp hd with rfl | hd
      · exact Or.inr (Or.inl rfl)
      · cases hd
    have hnl : ∀ d ∈ [(⟨OpInsert, after⟩ : diff)], d.Text.length < 2 ^ 64 := by
      intro d hd
      rcases List.mem_cons.mp hd with rfl | hd
      · dsimp only
        omega
      · cases hd
    rw [varintRecords_encode [⟨OpInsert, after⟩] _ hnw hnl, varintRecords_crc]
    simp [crcSum]
  · rw [if_neg hn]
    rw [varintRecords_encode ds _ hwf hlen, varintRecords_crc]
    simp [crcSum]

/-- Witness for C3 at a concrete pair of one byte texts. -/
theorem C3_varint_record_stream_witness :
    varintRecords (VarintFormat.MakePatchTimeout [97] [98] true (fun _ => false))
      = true :=
  C3_varint_record_stream [97] [98] true (fun _ => false) (by decide) (by decide)

/-- C4 counterexample: at before aa and after aaaa the naive single Insert
script and the computed script have equal encoded length 6, so the naive
encoding is not larger, yet the encoder keeps the computed script: the
substitution test of the source is strictly less than, not at most. -/
theorem C4_counterexample :
    VarintFormat.encodedLen [⟨OpInsert, [97, 97, 97, 97]⟩]
        = VarintFormat.encodedLen (diffMain [97, 97] [97, 97, 97, 97] true
            (fun _ => false)) ∧
    VarintFormat.MakePatchTimeout [97, 97] [97, 97, 97, 97] true (fun _ => false)
        ≠ VarintFormat.encodeOps [⟨OpInsert, [97, 97, 97, 97]⟩]
            ++ OpCRC :: crcSum (crc32 [97, 97, 97, 97]) := by
  have hd := diffMain_aa_aaaa (fun _ => false)
  have hu4 : VarintFormat.uvarintLen 4 = 1 := by rw [VarintFormat.uvarintLen]; rfl
  have hu2 : VarintFormat.uvarintLen 2 = 1 := by rw [VarintFormat.uvarintLen]; rfl
  have he1 : VarintFormat.encodedLen [(⟨OpInsert, [97, 97, 97, 97]⟩ : diff)] = 6 := by
    simp [VarintFormat.encodedLen, hu4]
  have he2 : VarintFormat.encodedLen
      [(⟨OpCopy, [97, 97]⟩ : diff), ⟨OpInsert, [97, 97]⟩] = 6 := by
    simp +decide [VarintFormat.encodedLen, hu2]
  constructor
  · rw [hd, he1, he2]
  · rw [VarintFormat.MakePatchTimeout, hd, if_neg (by rw [he1, he2]; omega)]
    intro hcontra
    have hp2 : VarintFormat.putUvarint 2 = [2] := by rw [VarintFormat.putUvarint]; rfl
    have hp4 : VarintFormat.putUvarint 4 = [4] := by rw [VarintFormat.putUvarint]; rfl
    simp +decide [VarintFormat.encodeOps, hp2, hp4, OpCopy, OpInsert, OpCRC] at hcontra

/-- C4 amended: the encoder substitutes the naive script exactly when its
encoding is strictly smaller than the computed script encoding (a tie keeps
the computed script), and in every case the produced patch is no longer
than the naive encoding plus the five byte checksum record. -/
theorem C4_naive_substitution (before after : List Byte) (timed : Bool)
    (exp : Nat → Bool) :
    (VarintFormat.encodedLen [⟨OpInsert, after⟩]
        < VarintFormat.encodedLen (diffMain before after timed exp) →
      VarintFormat.MakePatchTimeout before after timed exp
        = VarintFormat.encodeOps [⟨OpInsert, after⟩] ++ OpCRC :: crcSum (crc32 after)) ∧
    (VarintFormat.encodedLen (diffMain before after timed exp)
        ≤ VarintFormat.encodedLen [⟨OpInsert, after⟩] →
      VarintFormat.MakePatchTimeout before after timed exp
        = VarintFormat.encodeOps (diffMain before after timed exp)
            ++ OpCRC :: crcSum (crc32 after)) ∧
    (VarintFormat.MakePatchTimeout before after timed exp).length
        ≤ after.length + VarintFormat.uvarintLen after.length + 6 := by
  have hnaive : VarintFormat.encodedLen [(⟨OpInsert, after⟩ : diff)]
      = 1 + VarintFormat.uvarintLen after.length + after.length := by
    simp [VarintFormat.encodedLen]
  refine ⟨?_, ?_, ?_⟩
  · intro h
    rw [VarintFormat.MakePatchTimeout, if_pos h]
  · intro h
    rw [VarintFormat.MakePatchTimeout, if_neg (by omega)]
  · rw [VarintFormat.MakePatchTimeout]
    have hc4 : (crcSum (crc32 after)).length = 4 := rfl
    by_cases h : VarintFormat.encodedLen [(⟨OpInsert, after⟩ : diff)]
        < VarintFormat.encodedLen (diffMain before after timed exp)
    · rw [if_pos h]
      simp only [List.length_append, List.length_cons, VarintFormat.encodeOps_length]
      omega
    · rw [if_neg h]
      push_neg at h
      simp only [List.length_append, List.length_cons, VarintFormat.encodeOps_length]
      omega

/-- Witness for C4: for empty texts the computed script encoding is not
smaller than the naive encoding, so the computed script is kept. -/
theorem C4_naive_substitution_witness :
    VarintFormat.MakePatchTimeout [] [] true (fun _ => false)
      = VarintFormat.encodeOps (diffMain [] [] true (fun _ => false))
          ++ OpCRC :: crcSum (crc32 []) :=
  (C4_naive_substitution [] [] true (fun _ => false)).2.1
    (by rw [diffMain_empty_empty]; simp [VarintFormat.encodedLen])

/-- C5 counterexample: with checksum verification enabled, the hex patch
for before 0 and an empty after stores CRC digit 0 (the CRC of the empty
output), which the decoder treats as no checksum; applying it to the
mutated before byte 1 succeeds instead of failing with a CRC mismatch. -/
theorem C5_counterexample :
    HexFormat.ApplyPatch [49] (HexFormat.MakePatch [48] [] ⟨false⟩ true (fun _ => false))
      ⟨false⟩ = .ok [] := by
  have hmp : HexFormat.MakePatch [48] [] ⟨false⟩ true (fun _ => false)
      = [65, 48, 73, 48, 75] := by
    rw [HexFormat.MakePatch, diffMain_del_48]
    rw [if_pos (by decide : ((([] : List Byte).length : Int))
        < HexFormat.encodedLen [⟨OpDelete, [48]⟩])]
    decide
  rw [hmp]
  rw [show ([65, 48, 73, 48, 75] : List Byte) = VersionByte :: [48, 73, 48, 75] from rfl]
  rw [HexFormat.hex_apply_version]
  rw [HexFormat.applyLoop_readop_ok _ _ _ _ [48, 75] 0 73 (by decide)]
  rw [if_neg (by decide), if_pos (show (73 : Byte) = OpInsert from rfl), if_pos (by decide)]
  rw [show List.drop 0 ([48, 75] : List Byte) = [48, 75] from rfl]
  rw [show (([] : List Byte) ++ List.take 0 ([48, 75] : List Byte)) = [] from rfl]
  rw [HexFormat.applyLoop_readop_ok _ _ _ _ [] 0 75 (by decide)]
  rw [if_neg (by decide), if_neg (by decide), if_neg (by decide)]
  rw [if_neg (by rintro ⟨hh1, hh2, hh3⟩; exact hh2 (by decide))]

/-- C5 amended: with verification disabled the decoder never reports a CRC
mismatch; with verification enabled, a mismatch is reported exactly at a
checksum record whose stored value is nonzero and differs from the CRC of
the reconstructed output, so detection is skipped when the stored value is
0.  A single byte mutation of before is therefore detected only when the
patch stores a nonzero CRC value. -/
theorem C5_crc_detection (cfg : HexFormat.config) (b p out rest : List Byte)
    (c : Nat) :
    (cfg.noCRC = true → HexFormat.applyLoop cfg b p out ≠ .error .crcMismatch) ∧
    (c < 2 ^ 32 → c ≠ 0 → cfg.noCRC = false → crc32 out ≠ c →
      HexFormat.applyLoop cfg b (HexFormat.toHex c ++ OpCRC :: rest) out
        = .error .crcMismatch) := by
  constructor
  · intro hnc
    exact HexFormat.applyLoop_noCRC_ok p.length cfg b p out hnc le_rfl
  · intro hc h0 hnc hne
    have h9 : c < 16 ^ 9 := by
      have hlt : (2 : Nat) ^ 32 < 16 ^ 9 := by norm_num
      omega
    rw [HexFormat.applyLoop_readop_ok cfg b _ out rest c OpCRC
      (HexFormat.readOp_toHex c h9 OpCRC (Or.inr (Or.inr (Or.inr rfl))) rest)]
    rw [if_neg (by decide), if_neg (by decide), if_neg (by decide)]
    rw [Nat.mod_eq_of_lt hc]
    rw [if_pos ⟨by simp [hnc], h0, hne⟩]

/-- Witness for C5: a stored nonzero CRC digit 1 over an empty output is
reported as a mismatch. -/
theorem C5_crc_detection_witness :
    HexFormat.applyLoop ⟨false⟩ [] (HexFormat.toHex 1 ++ OpCRC :: []) []
      = .error .crcMismatch :=
  (C5_crc_detection ⟨false⟩ [] [] [] [] 1).2
    (by norm_num) (by norm_num) rfl (by decide)

/-- C6: the hex decoder returns as soon as it reads a checksum record, so a
patch with a trailing byte after the checksum record is accepted without
error, contradicting the documented ErrExtraData behaviour. -/
theorem C6_extra_data_accepted :
    HexFormat.ApplyPatch [] [65, 48, 73, 48, 75, 42] ⟨false⟩ = .ok [] := by
  rw [show ([65, 48, 73, 48, 75, 42] : List Byte)
    = VersionByte :: [48, 73, 48, 75, 42] from rfl]
  rw [HexFormat.hex_apply_version]
  rw [HexFormat.applyLoop_readop_ok _ _ _ _ [48, 75, 42] 0 73 (by decide)]
  rw [if_neg (by decide), if_pos (show (73 : Byte) = OpInsert from rfl), if_pos (by decide)]
  rw [show List.drop 0 ([48, 75, 42] : List Byte) = [48, 75, 42] from rfl]
  rw [show (([] : List Byte) ++ List.take 0 ([48, 75, 42] : List Byte)) = [] from rfl]
  rw [HexFormat.applyLoop_readop_ok _ _ _ _ [42] 0 75 (by decide)]
  rw [if_neg (by decide), if_neg (by decide), if_neg (by decide)]
  rw [if_neg (by rintro ⟨hh1, hh2, hh3⟩; exact hh2 (by decide))]

/-- C7 counterexample: the hex decoder demands a checksum record; a patch
that ends cleanly after a complete Insert record is rejected with an
unexpected end of file error even with the no CRC option, so the Reading
state does not transition to Done on clean end of stream. -/
theorem C7_counterexample :
    HexFormat.ApplyPatch [] [65, 48, 73] ⟨true⟩ = .error .unexpectedEOF := by
  rw [show ([65, 48, 73] : List Byte) = VersionByte :: [48, 73] from rfl]
  rw [HexFormat.hex_apply_version]
  rw [HexFormat.applyLoop_readop_ok _ _ _ _ [] 0 73 (by decide)]
  rw [if_neg (by decide), if_pos (show (73 : Byte) = OpInsert from rfl), if_pos (by decide)]
  rw [show List.drop 0 ([] : List Byte) = [] from rfl]
  rw [show (([] : List Byte) ++ List.take 0 ([] : List Byte)) = [] from rfl]
  exact HexFormat.applyLoop_readop_err_eof _ _ _ _ (by decide)

/-- C7 amended: the varint decoder of the package variant terminates
successfully on clean end of the patch stream after the last complete
record when the patch carries no checksum record, returning the
reconstructed after bytes. -/
theorem C7_varint_clean_eof (before after : List Byte) (s : List diff)
    (hg : Good before after s) (hb : before.length < 2 ^ 63)
    (ha : after.length < 2 ^ 63) :
    VarintFormat.ApplyPatch before (VarintFormat.encodeOps s) = .ok after := by
  obtain ⟨hsrc, hdst, hwf⟩ := hg
  have hp : (2 : Nat) ^ 63 + 2 ^ 63 = 2 ^ 64 := by norm_num
  have hlen : ∀ d ∈ s, d.Text.length < 2 ^ 64 := by
    intro d hd
    have hle := VarintFormat.mem_text_le s hwf d hd
    rw [hsrc, hdst] at hle
    omega
  rw [VarintFormat.ApplyPatch]
  have hstep := VarintFormat.applyLoop_encode s [] [] [] hwf hlen
  simp only [List.append_nil, List.nil_append, hsrc, hdst] at hstep
  rw [hstep, VarintFormat.applyLoop_nil]

/-- Witness for C7 at a concrete one record checksum free patch. -/
theorem C7_varint_clean_eof_witness :
    VarintFormat.ApplyPatch [97] (VarintFormat.encodeOps [⟨OpCopy, [97]⟩]) = .ok [97] :=
  C7_varint_clean_eof [97] [97] [⟨OpCopy, [97]⟩]
    ⟨rfl, rfl, by
      intro d hd
      rcases List.mem_cons.mp hd with rfl | hd
      · exact Or.inl rfl
      · cases hd⟩
    (by decide) (by decide)

/-- C10: every hex patch ends with the hex digits of the stored CRC value
followed by the opcode K, the stored value being 0 exactly when the no CRC
option was given; and the decoder accepts a checksum record storing 0
without verifying, for every configuration. -/
theorem C10_checksum_record_always (before after beforeRem out : List Byte)
    (cfg cfg2 : HexFormat.config) (timed : Bool) (exp : Nat → Bool) :
    (∃ records, HexFormat.MakePatch before after cfg timed exp
        = VersionByte :: (records
            ++ HexFormat.toHex (if cfg.noCRC then 0 else crc32 after) ++ [OpCRC])) ∧
    HexFormat.applyLoop cfg2 beforeRem (HexFormat.toHex 0 ++ [OpCRC]) out = .ok out := by
  constructor
  · rw [HexFormat.MakePatch]
    exact ⟨_, rfl⟩
  · exact HexFormat.applyLoop_hex_trailer cfg2 beforeRem out 0 (by norm_num) (Or.inl rfl)


end Lightpatch
